import Mathlib

/-!
# Rasterisation core of `graphics_algorithms.c`

Shallow embedding of the algorithmic functions of `src/graphics_algorithms.c`
(`drawLineBresenham`, `plotSymmetric`, `drawCircleMidpoint`, `translate`, `rotate_point`,
`reflectY`, `drawTriangle`) together with proofs of their specified properties.

Modelling conventions.

* The C type `int` is the signed 32-bit range `[-2^31, 2^31 - 1]`.  Signed overflow is
  undefined behaviour in C.  The functions whose names end in `32`, and `translate`,
  `reflectY`, `drawTriangle` and `rotate_point`, check every `int` operation of the source
  against this range, in source order, and yield `none` when one of them leaves it: a
  result `some _` means that the C call is well defined and returns that value.
* `lineLoop`, `drawLineBresenham`, `plotSymmetric`, `circleLoop` and `drawCircleMidpoint`
  are the same programs over the unbounded integers `Int`.  They describe the C functions
  exactly on the inputs for which no `int` operation overflows; the agreement is proved in
  `drawLineBresenham32_of_range` and `drawCircleMidpoint32_of_range`.
* `rotate_point` computes in double precision.  A `double` is represented by its rational
  value; the rounded arithmetic operations, the constant `M_PI` and the library functions
  `sin` and `cos` are parameters, collected in a `FloatEnv`, and theorems about
  `rotate_point` assume error bounds on them (`FloatEnv.Accurate`) instead of fixing one
  implementation.
* `plot(x, y, color)` only paints a pixel; a drawing routine is modelled by the list of
  coordinates it passes to `plot`, in call order.  The colour is passed through unchanged
  and is omitted.
* Loops are modelled with an explicit iteration budget `fuel`: the result is `none` when the
  budget is exhausted before the loop exits and `some trace` otherwise.  Termination is
  proved by exhibiting a budget that always suffices.
-/

namespace Graphics

/-! ## Definitions -/

/-- Integer point, `typedef struct { int x; int y; } Point;`. -/
structure Point where
  x : Int
  y : Int
deriving DecidableEq, Repr

/-! ### Unbounded-integer model of the rasterisers -/

/-- The `while (true)` loop of `drawLineBresenham` (source lines 130-144).  The parameters
`x1 y1 dx dy sx sy` are the loop constants, the state is `(x0, y0, err)`.  One unit of fuel
is one execution of the loop body: the pixel `(x0, y0)` is plotted, the loop exits when the
target is reached, otherwise `e2 = 2 * err` is computed once and the two independent updates
are applied.
This is the loop over the unbounded integers; `lineLoop32` is the loop on 32-bit `int`. -/
def lineLoop (x1 y1 dx dy sx sy : Int) : Nat → Int → Int → Int → Option (List Point)
  | 0, _, _, _ => none
  | fuel + 1, x0, y0, err =>
    if x0 = x1 ∧ y0 = y1 then some [⟨x0, y0⟩]
    else
      let e2 := 2 * err
      let err1 := if e2 ≥ dy then err + dy else err
      let xn := if e2 ≥ dy then x0 + sx else x0
      let err2 := if e2 ≤ dx then err1 + dx else err1
      let yn := if e2 ≤ dx then y0 + sy else y0
      (lineLoop x1 y1 dx dy sx sy fuel xn yn err2).map (fun t => ⟨x0, y0⟩ :: t)

/-- Bresenham line rasteriser `drawLineBresenham(x0, y0, x1, y1, color)` (source lines
123-145): the sequence of pixels passed to `plot`.
This is the function over the unbounded integers; it
agrees with the C function on the inputs of `LineInRange`, where `drawLineBresenham32`
shows that no `int` operation overflows. -/
def drawLineBresenham (fuel : Nat) (x0 y0 x1 y1 : Int) : Option (List Point) :=
  let dx := |x1 - x0|
  let sx : Int := if x0 < x1 then 1 else -1
  let dy := -|y1 - y0|
  let sy : Int := if y0 < y1 then 1 else -1
  let err := dx + dy
  lineLoop x1 y1 dx dy sx sy fuel x0 y0 err

/-- The eight `plot` calls of `plotSymmetric(xc, yc, x, y, color)` (source lines 148-157),
in call order.
The coordinates are computed over the unbounded integers;
`plotSymmetric32` checks them against the `int` range. -/
def plotSymmetric (xc yc x y : Int) : List Point :=
  [⟨xc + x, yc + y⟩, ⟨xc - x, yc + y⟩, ⟨xc + x, yc - y⟩, ⟨xc - x, yc - y⟩,
   ⟨xc + y, yc + x⟩, ⟨xc - y, yc + x⟩, ⟨xc + y, yc - x⟩, ⟨xc - y, yc - x⟩]

/-- The `while (x < y)` loop of `drawCircleMidpoint` (source lines 167-176) with state
`(x, y, p)`.  One unit of fuel is one execution of the loop body; testing the loop
condition costs nothing.
This is the loop over the unbounded integers; `circleLoop32`
is the loop on 32-bit `int`. -/
def circleLoop (xc yc : Int) : Nat → Int → Int → Int → Option (List Point)
  | 0, x, y, _ => if x < y then none else some []
  | fuel + 1, x, y, p =>
    if x < y then
      let x := x + 1
      if p < 0 then
        let p := p + 2 * x + 1
        (circleLoop xc yc fuel x y p).map (fun t => plotSymmetric xc yc x y ++ t)
      else
        let y := y - 1
        let p := p + 2 * x + 1 - 2 * y
        (circleLoop xc yc fuel x y p).map (fun t => plotSymmetric xc yc x y ++ t)
    else some []

/-- Midpoint circle rasteriser `drawCircleMidpoint(xc, yc, r, color)` (source lines
160-177): the sequence of pixels passed to `plot`.
This is the function over the
unbounded integers; it agrees with the C function on the inputs of `CircleInRange`, where
`drawCircleMidpoint32` shows that no `int` operation overflows. -/
def drawCircleMidpoint (fuel : Nat) (xc yc r : Int) : Option (List Point) :=
  (circleLoop xc yc fuel 0 r (1 - r)).map (fun t => plotSymmetric xc yc 0 r ++ t)

/-! ### The same functions on 32-bit `int` -/

/-- Result of a C `int` operation whose mathematical value is `z`: defined exactly when `z`
lies in the signed 32-bit range `[-2^31, 2^31 - 1]`. -/
def int32 (z : Int) : Option Int :=
  if -2147483648 ≤ z ∧ z ≤ 2147483647 then some z else none

/-- The value `z` is representable as a C `int`: it lies in `[-2^31, 2^31 - 1]`. -/
def InInt32 (z : Int) : Prop := -2147483648 ≤ z ∧ z ≤ 2147483647

/-- The loop of `drawLineBresenham` (source lines 130-144) on 32-bit `int`: the operations
`2 * err`, `err += dy`, `x0 += sx`, `err += dx` and `y0 += sy` are each checked, and the run
yields `none` as soon as one of them leaves the range (or the budget is exhausted). -/
def lineLoop32 (x1 y1 dx dy sx sy : Int) : Nat → Int → Int → Int → Option (List Point)
  | 0, _, _, _ => none
  | fuel + 1, x0, y0, err =>
    if x0 = x1 ∧ y0 = y1 then some [⟨x0, y0⟩]
    else
      (int32 (2 * err)).bind fun e2 =>
      (if e2 ≥ dy then int32 (err + dy) else some err).bind fun err1 =>
      (if e2 ≥ dy then int32 (x0 + sx) else some x0).bind fun xn =>
      (if e2 ≤ dx then int32 (err1 + dx) else some err1).bind fun err2 =>
      (if e2 ≤ dx then int32 (y0 + sy) else some y0).bind fun yn =>
      (lineLoop32 x1 y1 dx dy sx sy fuel xn yn err2).map (fun t => ⟨x0, y0⟩ :: t)

/-- The function `drawLineBresenham` (source lines 123-145) on 32-bit `int`: the
subtractions `x1 - x0` and `y1 - y0`, both calls of `abs`, the negation, the sum `dx + dy`
and every operation of the loop are checked against the signed 32-bit range. -/
def drawLineBresenham32 (fuel : Nat) (x0 y0 x1 y1 : Int) : Option (List Point) :=
  (int32 (x1 - x0)).bind fun wx =>
  (int32 |wx|).bind fun dx =>
  (int32 (y1 - y0)).bind fun wy =>
  (int32 |wy|).bind fun ay =>
  (int32 (-ay)).bind fun dy =>
  (int32 (dx + dy)).bind fun err =>
  lineLoop32 x1 y1 dx dy (if x0 < x1 then 1 else -1) (if y0 < y1 then 1 else -1) fuel x0 y0 err

/-- One call `plot(x, y, color)` whose arguments have the mathematical values `x` and `y`:
both argument expressions must be C `int` values. -/
def plot32 (x y : Int) : Option Point :=
  (int32 x).bind fun a => (int32 y).map fun b => ⟨a, b⟩

/-- The eight `plot` calls of `plotSymmetric(xc, yc, x, y, color)` (source lines 148-157) on
32-bit `int`, in call order: each of the sixteen sums and differences is checked. -/
def plotSymmetric32 (xc yc x y : Int) : Option (List Point) :=
  (plot32 (xc + x) (yc + y)).bind fun q1 =>
  (plot32 (xc - x) (yc + y)).bind fun q2 =>
  (plot32 (xc + x) (yc - y)).bind fun q3 =>
  (plot32 (xc - x) (yc - y)).bind fun q4 =>
  (plot32 (xc + y) (yc + x)).bind fun q5 =>
  (plot32 (xc - y) (yc + x)).bind fun q6 =>
  (plot32 (xc + y) (yc - x)).bind fun q7 =>
  (plot32 (xc - y) (yc - x)).map fun q8 => [q1, q2, q3, q4, q5, q6, q7, q8]

/-- The `while (x < y)` loop of `drawCircleMidpoint` (source lines 167-176) on 32-bit `int`:
`x++`, `y--` and every operation of `p + 2 * x + 1` and of `p + 2 * x + 1 - 2 * y`,
evaluated from left to right as C parses them, are checked, as are the plotted
coordinates. -/
def circleLoop32 (xc yc : Int) : Nat → Int → Int → Int → Option (List Point)
  | 0, x, y, _ => if x < y then none else some []
  | fuel + 1, x, y, p =>
    if x < y then
      (int32 (x + 1)).bind fun x =>
      if p < 0 then
        (int32 (2 * x)).bind fun t1 =>
        (int32 (p + t1)).bind fun t2 =>
        (int32 (t2 + 1)).bind fun p =>
        (plotSymmetric32 xc yc x y).bind fun s =>
        (circleLoop32 xc yc fuel x y p).map (fun t => s ++ t)
      else
        (int32 (y - 1)).bind fun y =>
        (int32 (2 * x)).bind fun t1 =>
        (int32 (p + t1)).bind fun t2 =>
        (int32 (t2 + 1)).bind fun t3 =>
        (int32 (2 * y)).bind fun t4 =>
        (int32 (t3 - t4)).bind fun p =>
        (plotSymmetric32 xc yc x y).bind fun s =>
        (circleLoop32 xc yc fuel x y p).map (fun t => s ++ t)
    else some []

/-- The function `drawCircleMidpoint` (source lines 160-177) on 32-bit `int`: the
initialisation `p = 1 - r`, the first symmetric step and the loop are checked. -/
def drawCircleMidpoint32 (fuel : Nat) (xc yc r : Int) : Option (List Point) :=
  (int32 (1 - r)).bind fun p =>
  (plotSymmetric32 xc yc 0 r).bind fun s =>
  (circleLoop32 xc yc fuel 0 r p).map (fun t => s ++ t)

/-- Translation `translate(p, tx, ty)` (source lines 180-183): both sums are `int` additions. -/
def translate (p : Point) (tx ty : Int) : Option Point :=
  (int32 (p.x + tx)).bind fun x => (int32 (p.y + ty)).map fun y => ⟨x, y⟩

/-- Reflection about the Y axis `reflectY(p)` (source lines 199-202): `-p.x` is an `int`
negation. -/
def reflectY (p : Point) : Option Point :=
  (int32 (-p.x)).map fun x => ⟨x, p.y⟩

/-- Triangle outline `drawTriangle(p1, p2, p3, color)` (source lines 205-209): three calls of
`drawLineBresenham`, for `p1 → p2`, `p2 → p3` and `p3 → p1`, in this order, on 32-bit `int`.
Each call has the iteration budget `fuel` of its own. -/
def drawTriangle (fuel : Nat) (p1 p2 p3 : Point) : Option (List Point) :=
  (drawLineBresenham32 fuel p1.x p1.y p2.x p2.y).bind fun l1 =>
  (drawLineBresenham32 fuel p2.x p2.y p3.x p3.y).bind fun l2 =>
  (drawLineBresenham32 fuel p3.x p3.y p1.x p1.y).map fun l3 => l1 ++ (l2 ++ l3)

/-! ### Rotation in double precision -/

/-- The loop of `drawLineBresenham` (source lines 130-144), observed on the variable `err`
instead of the plotted pixel: every iteration records the value of `err` at its start and
the value after the first conditional update `err += dy`; the value after the second update
`err += dx` is the one the next iteration starts with. -/
def lineLoopErr (x1 y1 dx dy sx sy : Int) : Nat → Int → Int → Int → Option (List Int)
  | 0, _, _, _ => none
  | fuel + 1, x0, y0, err =>
    if x0 = x1 ∧ y0 = y1 then some [err]
    else
      let e2 := 2 * err
      let err1 := if e2 ≥ dy then err + dy else err
      let xn := if e2 ≥ dy then x0 + sx else x0
      let err2 := if e2 ≤ dx then err1 + dx else err1
      let yn := if e2 ≤ dx then y0 + sy else y0
      (lineLoopErr x1 y1 dx dy sx sy fuel xn yn err2).map (fun t => err :: err1 :: t)

/-- All values held by `err` during `drawLineBresenham(x0, y0, x1, y1, color)`, in order. -/
def drawLineBresenhamErr (fuel : Nat) (x0 y0 x1 y1 : Int) : Option (List Int) :=
  let dx := |x1 - x0|
  let sx : Int := if x0 < x1 then 1 else -1
  let dy := -|y1 - y0|
  let sy : Int := if y0 < y1 then 1 else -1
  let err := dx + dy
  lineLoopErr x1 y1 dx dy sx sy fuel x0 y0 err

/-! ### Specification vocabulary -/

/-- Two pixels are 8-connected neighbours (or equal): they differ by at most one in each
axis. -/
def Adjacent8 (p q : Point) : Prop := |q.x - p.x| ≤ 1 ∧ |q.y - p.y| ≤ 1

/-- Going from `p` to `q` moves at least one coordinate, and every coordinate that moves
changes by exactly one unit and ends strictly closer to the target `(x1, y1)`. -/
def StepsToward (x1 y1 : Int) (p q : Point) : Prop :=
  (q.x = p.x ∨ (|q.x - p.x| = 1 ∧ |x1 - q.x| < |x1 - p.x|)) ∧
  (q.y = p.y ∨ (|q.y - p.y| = 1 ∧ |y1 - q.y| < |y1 - p.y|)) ∧ q ≠ p

/-- Point reflection through the midpoint of the segment from `(x0, y0)` to `(x1, y1)`. -/
def Point.reflectIn (x0 y0 x1 y1 : Int) (p : Point) : Point := ⟨x0 + x1 - p.x, y0 + y1 - p.y⟩

/-- Exchange of the two coordinates. -/
def Point.swap (p : Point) : Point := ⟨p.y, p.x⟩

/-- Sign used by the line rasteriser: `(u < v) ? 1 : -1`. -/
def lineSign (u v : Int) : Int := if u < v then 1 else -1

/-- Offset along the minor axis after `k` steps along the major axis, for a line with minor
extent `m` and major extent `d`: the ideal offset `m * k / d` rounded to the nearest
integer, halves rounded up. -/
def minorIdx (m d : Int) (k : Nat) : Int := (2 * m * k + d) / (2 * d)

/-- Number of x steps taken before the `k`-th pixel of a line with extents `dx`, `a`. -/
def lineI (dx a : Int) (k : Nat) : Int := if a ≤ dx then (k : Int) else minorIdx dx a k

/-- Number of y steps taken before the `k`-th pixel of a line with extents `dx`, `a`. -/
def lineJ (dx a : Int) (k : Nat) : Int := if a ≤ dx then minorIdx a dx k else (k : Int)

/-- Closed form of the pixel sequence of a line: one pixel per unit of the major axis. -/
def linePoints (x0 y0 x1 y1 : Int) : List Point :=
  (List.range ((max |x1 - x0| |y1 - y0|).toNat + 1)).map
    (fun (k : Nat) => (⟨x0 + lineSign x0 x1 * lineI |x1 - x0| |y1 - y0| k,
                        y0 + lineSign y0 y1 * lineJ |x1 - x0| |y1 - y0| k⟩ : Point))

/-- No interior pixel of the line lies exactly half way between two grid rows (columns for a
steep line): the rounding in `minorIdx` never meets a tie. -/
def lineTieFree (dx a : Int) : Prop :=
  ∀ k : Nat, k < (max dx a).toNat → (2 * min dx a * k + max dx a) % (2 * max dx a) ≠ 0

/-- Value of `err` at the start of the iteration that plots the `k`-th pixel of a line with
extents `dx`, `a`. -/
def lineErrAt (dx a : Int) (k : Nat) : Int := dx - a + dx * lineJ dx a k - a * lineI dx a k

/-- The eight points of one symmetric step as the specification words them: the four points
`(cx ± x, cy ± y)` and the four points `(cx ± y, cx ± x)`, the latter with `cx` in both
coordinates. -/
def plotSymmetricAsStated (cx cy x y : Int) : List Point :=
  [⟨cx + x, cy + y⟩, ⟨cx - x, cy + y⟩, ⟨cx + x, cy - y⟩, ⟨cx - x, cy - y⟩,
   ⟨cx + y, cx + x⟩, ⟨cx - y, cx + x⟩, ⟨cx + y, cx - x⟩, ⟨cx - y, cx - x⟩]

/-- Range in which `drawLineBresenham` is free of overflow: the four coordinates are C `int`
values and three times the larger extent still fits in an `int`. -/
def LineInRange (x0 y0 x1 y1 : Int) : Prop :=
  InInt32 x0 ∧ InInt32 y0 ∧ InInt32 x1 ∧ InInt32 y1 ∧
    3 * max |x1 - x0| |y1 - y0| ≤ 2147483647

/-- The eight coordinates plotted by one symmetric step are C `int` values. -/
def SymInRange (xc yc x y : Int) : Prop :=
  InInt32 (xc + x) ∧ InInt32 (xc - x) ∧ InInt32 (yc + y) ∧ InInt32 (yc - y) ∧
  InInt32 (xc + y) ∧ InInt32 (xc - y) ∧ InInt32 (yc + x) ∧ InInt32 (yc - x)

/-- Range in which `drawCircleMidpoint` is free of overflow: the radius is not negative,
`4 * r` fits in an `int`, and the four extreme coordinates `xc ± r`, `yc ± r` are C `int`
values. -/
def CircleInRange (xc yc r : Int) : Prop :=
  0 ≤ r ∧ 4 * r ≤ 2147483647 ∧
  InInt32 (xc - r) ∧ InInt32 (xc + r) ∧ InInt32 (yc - r) ∧ InInt32 (yc + r)

/-- Floor division is characterised by its two bounds. -/
theorem ediv_eq_of_bounds (d n q : Int) (hd : 0 < d) (h1 : d * q ≤ n) (h2 : n < d * q + d) :
    n / d = q := by
  apply le_antisymm
  · have : n / d < q + 1 := by
      apply Int.ediv_lt_of_lt_mul hd
      linarith [mul_comm d q]
    omega
  · apply Int.le_ediv_of_mul_le hd
    linarith [mul_comm d q]

/-- Defining bounds of the rounded minor-axis offset. -/
theorem minorIdx_bounds (m d : Int) (k : Nat) (hd : 0 < d) :
    2 * d * minorIdx m d k ≤ 2 * m * k + d ∧ 2 * m * k + d < 2 * d * minorIdx m d k + 2 * d := by
  unfold minorIdx
  have h2 : (0:Int) < 2 * d := by omega
  constructor
  · have := Int.ediv_mul_le (2 * m * k + d) (ne_of_gt h2)
    linarith [mul_comm (2*d) ((2 * m * k + d) / (2 * d))]
  · have := Int.lt_ediv_add_one_mul_self (2 * m * k + d) h2
    linarith [mul_comm (2*d) ((2 * m * k + d) / (2 * d))]

/-- Any integer within the defining bounds is the minor-axis offset. -/
theorem minorIdx_eq_of (m d : Int) (k : Nat) (q : Int) (hd : 0 < d)
    (h1 : 2 * d * q ≤ 2 * m * k + d) (h2 : 2 * m * k + d < 2 * d * q + 2 * d) :
    minorIdx m d k = q := by
  unfold minorIdx
  exact ediv_eq_of_bounds _ _ _ (by omega) h1 h2

/-- Exchanging the roles of the two axes (and negating the error term) transposes the
trace of the loop: the two updates of the loop body are mirror images of each other. -/
theorem lineLoop_swap (x1 y1 dx a sx sy : Int) :
    ∀ (fuel : Nat) (x y err : Int),
      lineLoop y1 x1 a (-dx) sy sx fuel y x (-err)
        = (lineLoop x1 y1 dx (-a) sx sy fuel x y err).map (List.map Point.swap) := by
  intro fuel
  induction fuel with
  | zero => intro x y err; simp [lineLoop]
  | succ f ih =>
    intro x y err
    simp only [lineLoop]
    by_cases hb : x = x1 ∧ y = y1
    · have hb' : y = y1 ∧ x = x1 := ⟨hb.2, hb.1⟩
      simp [hb, hb', Point.swap]
    · have hb' : ¬ (y = y1 ∧ x = x1) := fun h => hb ⟨h.2, h.1⟩
      rw [if_neg hb, if_neg hb']
      have c1 : (2 * (-err) ≥ -dx) ↔ (2 * err ≤ dx) := by constructor <;> intro h <;> omega
      have c2 : (2 * (-err) ≤ a) ↔ (2 * err ≥ -a) := by constructor <;> intro h <;> omega
      simp only [c1, c2]
      by_cases hx : 2 * err ≥ -a <;> by_cases hy : 2 * err ≤ dx
      all_goals
        simp only [hx, hy, if_true, if_false]
      · have e : -err + -dx + a = -(err + -a + dx) := by ring
        rw [e, ih]
        cases lineLoop x1 y1 dx (-a) sx sy f (x + sx) (y + sy) (err + -a + dx) <;> simp [Point.swap]
      · have e : -err + a = -(err + -a) := by ring
        rw [e, ih]
        cases lineLoop x1 y1 dx (-a) sx sy f (x + sx) y (err + -a) <;> simp [Point.swap]
      · have e : -err + -dx  = -(err + dx) := by ring
        rw [e, ih]
        cases lineLoop x1 y1 dx (-a) sx sy f x (y + sy) (err + dx) <;> simp [Point.swap]
      · rw [ih]
        cases lineLoop x1 y1 dx (-a) sx sy f x y err <;> simp [Point.swap]

/-- Invariant of the loop for a line whose x extent `dx` is positive and at least its y
extent `a`: after `i` iterations the state is `x = x0 + sx * i`, `y = y0 + sy * j` and
`err = dx - a + dx * j - a * i` with `j = minorIdx a dx i`; x advances in every iteration and the loop exits after
exactly `dx - i` further iterations. -/
theorem lineLoop_major (x0 y0 sx sy a dx : Int) (hsx : sx = 1 ∨ sx = -1)
    (ha : 0 ≤ a) (had : a ≤ dx) (hdx : 0 < dx) :
    ∀ (n i fuel : Nat), (i : Int) + n = dx → n < fuel →
      lineLoop (x0 + sx * dx) (y0 + sy * a) dx (-a) sx sy fuel
          (x0 + sx * i) (y0 + sy * minorIdx a dx i) (dx - a + dx * minorIdx a dx i - a * i)
        = some ((List.range' i (n + 1)).map
            (fun (k : Nat) => (⟨x0 + sx * (k : Int), y0 + sy * minorIdx a dx k⟩ : Point))) := by
  intro n
  induction n with
  | zero =>
    intro i fuel hi hf
    obtain ⟨f, rfl⟩ : ∃ f, fuel = f + 1 := ⟨fuel - 1, by omega⟩
    have hi' : (i : Int) = dx := by simpa using hi
    have hJ : minorIdx a dx i = a := by
      apply minorIdx_eq_of _ _ _ _ hdx
      · rw [hi']; nlinarith
      · rw [hi']; nlinarith
    simp [lineLoop, hi', hJ, List.range']
  | succ n ih =>
    intro i fuel hi hf
    obtain ⟨f, rfl⟩ : ∃ f, fuel = f + 1 := ⟨fuel - 1, by omega⟩
    have hlt : (i : Int) < dx := by push_cast at hi; omega
    have hne : ¬ (x0 + sx * (i:Int) = x0 + sx * dx ∧ y0 + sy * minorIdx a dx i = y0 + sy * a) := by
      rintro ⟨h, -⟩
      rcases hsx with rfl | rfl <;> omega
    obtain ⟨b1, b2⟩ := minorIdx_bounds a dx i hdx
    obtain ⟨c1, c2⟩ := minorIdx_bounds a dx (i+1) hdx
    simp only [lineLoop]
    rw [if_neg hne]
    have hx : 2 * (dx - a + dx * minorIdx a dx i - a * i) ≥ -a := by nlinarith
    simp only [hx, if_true]
    have key := ih (i + 1) f (by push_cast at hi ⊢; omega) (by omega)
    rw [List.range'_succ, List.map_cons]
    by_cases hy : 2 * (dx - a + dx * minorIdx a dx i - a * i) ≤ dx
    · have hJ : minorIdx a dx (i+1) = minorIdx a dx i + 1 := by
        apply minorIdx_eq_of _ _ _ _ hdx
        · push_cast; nlinarith
        · push_cast; nlinarith
      simp only [hy, if_true]
      rw [hJ] at key
      push_cast at key
      have e1 : x0 + sx * (i:Int) + sx = x0 + sx * ((i:Int) + 1) := by ring
      have e2 : y0 + sy * minorIdx a dx i + sy = y0 + sy * (minorIdx a dx i + 1) := by ring
      have e3 : dx - a + dx * minorIdx a dx i - a * (i:Int) + -a + dx
          = dx - a + dx * (minorIdx a dx i + 1) - a * ((i:Int) + 1) := by ring
      rw [e1, e2, e3, key]
      simp
    · have hJ : minorIdx a dx (i+1) = minorIdx a dx i := by
        apply minorIdx_eq_of _ _ _ _ hdx
        · push_cast; nlinarith
        · push_cast; nlinarith
      simp only [hy, if_false]
      rw [hJ] at key
      push_cast at key
      have e1 : x0 + sx * (i:Int) + sx = x0 + sx * ((i:Int) + 1) := by ring
      have e3 : dx - a + dx * minorIdx a dx i - a * (i:Int) + -a
          = dx - a + dx * (minorIdx a dx i) - a * ((i:Int) + 1) := by ring
      rw [e1, e3, key]
      simp

/-- The step sign is `1` or `-1`. -/
theorem lineSign_cases (u v : Int) : lineSign u v = 1 ∨ lineSign u v = -1 := by
  unfold lineSign; split <;> simp

/-- Walking the absolute extent in the direction of the sign reaches the target. -/
theorem lineSign_mul_abs (u v : Int) : u + lineSign u v * |v - u| = v := by
  unfold lineSign
  split
  · rw [abs_of_pos (by omega)]; ring
  · rw [abs_of_nonpos (by omega)]; ring

/-- The minor-axis offset of the first pixel is zero. -/
theorem minorIdx_zero (m d : Int) (hd : 0 ≤ d) : minorIdx m d 0 = 0 := by
  rcases eq_or_lt_of_le hd with h | h
  · subst h; simp [minorIdx]
  · apply minorIdx_eq_of _ _ _ _ h <;> simp <;> omega

/-- The loop started at `(x0, y0)` with `err = dx - a` computes the closed form, for all
four sign combinations and both shallow and steep lines. -/
theorem lineLoop_closed (x0 y0 sx sy dx a : Int) (hsx : sx = 1 ∨ sx = -1)
    (hsy : sy = 1 ∨ sy = -1) (hdx : 0 ≤ dx) (ha : 0 ≤ a) (fuel : Nat)
    (hfuel : max dx a < (fuel : Int)) :
    lineLoop (x0 + sx * dx) (y0 + sy * a) dx (-a) sx sy fuel x0 y0 (dx + -a)
      = some ((List.range ((max dx a).toNat + 1)).map
          (fun (k : Nat) => (⟨x0 + sx * lineI dx a k, y0 + sy * lineJ dx a k⟩ : Point))) := by
  by_cases had : a ≤ dx
  · rw [max_eq_left had] at hfuel ⊢
    rcases eq_or_lt_of_le hdx with h0 | hpos
    · subst h0
      have ha' : a = 0 := le_antisymm had ha
      subst ha'
      obtain ⟨f, rfl⟩ : ∃ f, fuel = f + 1 := ⟨fuel - 1, by omega⟩
      simp [lineLoop, lineI, lineJ, minorIdx, List.range_succ]
    · have key := lineLoop_major x0 y0 sx sy a dx hsx ha had hpos dx.toNat 0 fuel
        (by simp; omega) (by omega)
      rw [minorIdx_zero a dx hdx] at key
      simp only [Nat.cast_zero, mul_zero, add_zero, sub_zero] at key
      have e : dx + -a = dx - a := by ring
      rw [e, key, List.range_eq_range']
      simp only [lineI, lineJ, had, if_true]
  · have hlt : dx < a := by omega
    rw [max_eq_right (le_of_lt hlt)] at hfuel ⊢
    have key := lineLoop_major y0 x0 sy sx dx a hsy hdx (le_of_lt hlt) (by omega) a.toNat 0 fuel
        (by simp; omega) (by omega)
    rw [minorIdx_zero dx a ha] at key
    simp only [Nat.cast_zero, mul_zero, add_zero, sub_zero] at key
    have sw := lineLoop_swap (y0 + sy * a) (x0 + sx * dx) a dx sy sx fuel y0 x0 (a - dx)
    have e : dx + -a = -(a - dx) := by ring
    rw [e, sw, key, List.range_eq_range']
    simp only [lineI, lineJ, had, if_false, Option.map_some', List.map_map]
    congr 1

/-- Total correctness of the line rasteriser: any budget above `max |x1 - x0| |y1 - y0|`
suffices and the plotted sequence is the closed form `linePoints`. -/
theorem drawLineBresenham_eq (x0 y0 x1 y1 : Int) (fuel : Nat)
    (hfuel : max |x1 - x0| |y1 - y0| < (fuel : Int)) :
    drawLineBresenham fuel x0 y0 x1 y1 = some (linePoints x0 y0 x1 y1) := by
  have key := lineLoop_closed x0 y0 (lineSign x0 x1) (lineSign y0 y1) |x1 - x0| |y1 - y0|
    (lineSign_cases _ _) (lineSign_cases _ _) (abs_nonneg _) (abs_nonneg _) fuel hfuel
  rw [lineSign_mul_abs, lineSign_mul_abs] at key
  exact key

/-- The minor-axis offset grows by zero or one per major-axis step. -/
theorem minorIdx_step (m d : Int) (k : Nat) (hm : 0 ≤ m) (hmd : m ≤ d) (hd : 0 < d) :
    minorIdx m d (k + 1) = minorIdx m d k ∨ minorIdx m d (k + 1) = minorIdx m d k + 1 := by
  obtain ⟨b1, b2⟩ := minorIdx_bounds m d k hd
  by_cases h : 2 * d * (minorIdx m d k + 1) ≤ 2 * m * ((k + 1 : Nat) : Int) + d
  · right
    apply minorIdx_eq_of _ _ _ _ hd h
    push_cast; nlinarith
  · left
    apply minorIdx_eq_of _ _ _ _ hd
    · push_cast; nlinarith
    · push_cast at h ⊢; nlinarith

/-- The minor-axis offset never exceeds the minor extent. -/
theorem minorIdx_le (m d : Int) (k : Nat) (hm : 0 ≤ m) (hd : 0 < d) (hk : (k : Int) ≤ d) :
    minorIdx m d k ≤ m := by
  obtain ⟨b1, b2⟩ := minorIdx_bounds m d k hd
  by_contra hcon
  have h1 : m + 1 ≤ minorIdx m d k := by omega
  have h2 : m * (k : Int) ≤ m * d := mul_le_mul_of_nonneg_left hk hm
  have h3 : d * (m + 1) ≤ d * minorIdx m d k := mul_le_mul_of_nonneg_left h1 (le_of_lt hd)
  nlinarith

/-- The minor-axis offset of the last pixel is the minor extent. -/
theorem minorIdx_end (m d : Int) (hd : 0 < d) : minorIdx m d d.toNat = m := by
  apply minorIdx_eq_of _ _ _ _ hd
  · rw [Int.toNat_of_nonneg (le_of_lt hd)]; nlinarith
  · rw [Int.toNat_of_nonneg (le_of_lt hd)]; nlinarith

/-- Both step counters start at zero. -/
theorem lineIdx_start (dx a : Int) (hdx : 0 ≤ dx) (ha : 0 ≤ a) :
    lineI dx a 0 = 0 ∧ lineJ dx a 0 = 0 := by
  unfold lineI lineJ
  split <;> simp [minorIdx_zero, hdx, ha]

/-- Both step counters end at the respective extent. -/
theorem lineIdx_end (dx a : Int) (hdx : 0 ≤ dx) (ha : 0 ≤ a) :
    lineI dx a (max dx a).toNat = dx ∧ lineJ dx a (max dx a).toNat = a := by
  unfold lineI lineJ
  by_cases had : a ≤ dx
  · simp only [had, if_true, max_eq_left had, Int.toNat_of_nonneg hdx, true_and]
    rcases eq_or_lt_of_le hdx with h | h
    · subst h
      have : a = 0 := le_antisymm had ha
      subst this
      simp [minorIdx]
    · exact minorIdx_end a dx h
  · have hlt : dx < a := by omega
    simp only [had, if_false, max_eq_right (le_of_lt hlt), Int.toNat_of_nonneg ha, and_true]
    exact minorIdx_end dx a (by omega)

/-- From one pixel to the next each step counter grows by zero or one without passing its
extent, and at least one of them grows. -/
theorem lineIdx_step (dx a : Int) (hdx : 0 ≤ dx) (ha : 0 ≤ a) (k : Nat)
    (hk : k < (max dx a).toNat) :
    (lineI dx a (k + 1) = lineI dx a k ∨
        (lineI dx a (k + 1) = lineI dx a k + 1 ∧ lineI dx a (k + 1) ≤ dx)) ∧
    (lineJ dx a (k + 1) = lineJ dx a k ∨
        (lineJ dx a (k + 1) = lineJ dx a k + 1 ∧ lineJ dx a (k + 1) ≤ a)) ∧
    (lineI dx a (k + 1) = lineI dx a k + 1 ∨ lineJ dx a (k + 1) = lineJ dx a k + 1) := by
  unfold lineI lineJ
  by_cases had : a ≤ dx
  · rw [max_eq_left had] at hk
    have hkd : ((k + 1 : Nat) : Int) ≤ dx := by omega
    have hpos : 0 < dx := by omega
    simp only [had, if_true]
    refine ⟨Or.inr ⟨by push_cast; ring, hkd⟩, ?_, Or.inl (by push_cast; ring)⟩
    rcases minorIdx_step a dx k ha had hpos with h | h
    · exact Or.inl h
    · exact Or.inr ⟨h, minorIdx_le a dx (k + 1) ha hpos hkd⟩
  · have hlt : dx < a := by omega
    rw [max_eq_right (le_of_lt hlt)] at hk
    have hkd : ((k + 1 : Nat) : Int) ≤ a := by omega
    have hpos : 0 < a := by omega
    simp only [had, if_false]
    refine ⟨?_, Or.inr ⟨by push_cast; ring, hkd⟩, Or.inr (by push_cast; ring)⟩
    rcases minorIdx_step dx a k hdx (le_of_lt hlt) hpos with h | h
    · exact Or.inl h
    · exact Or.inr ⟨h, minorIdx_le dx a (k + 1) hdx hpos hkd⟩

/-- Distinct pixel indices have distinct step counters. -/
theorem lineIdx_inj (dx a : Int) (k l : Nat)
    (h : lineI dx a k = lineI dx a l ∧ lineJ dx a k = lineJ dx a l) : k = l := by
  unfold lineI lineJ at h
  split at h
  · exact_mod_cast h.1
  · exact_mod_cast h.2

/-- The closed form has `max |x1 - x0| |y1 - y0| + 1` pixels. -/
theorem linePoints_length (x0 y0 x1 y1 : Int) :
    ((linePoints x0 y0 x1 y1).length : Int) = max |x1 - x0| |y1 - y0| + 1 := by
  have h : 0 ≤ max |x1 - x0| |y1 - y0| := le_max_of_le_left (abs_nonneg _)
  simp [linePoints, Int.toNat_of_nonneg h]

/-- The closed form starts at `(x0, y0)`. -/
theorem linePoints_head (x0 y0 x1 y1 : Int) :
    (linePoints x0 y0 x1 y1).head? = some ⟨x0, y0⟩ := by
  obtain ⟨hI, hJ⟩ := lineIdx_start |x1 - x0| |y1 - y0| (abs_nonneg _) (abs_nonneg _)
  simp [linePoints, List.range_succ_eq_map, hI, hJ]

/-- The closed form ends at `(x1, y1)`. -/
theorem linePoints_getLast (x0 y0 x1 y1 : Int) :
    (linePoints x0 y0 x1 y1).getLast? = some ⟨x1, y1⟩ := by
  obtain ⟨hI, hJ⟩ := lineIdx_end |x1 - x0| |y1 - y0| (abs_nonneg _) (abs_nonneg _)
  simp only [linePoints, List.range_succ, List.map_append, List.map_cons, List.map_nil,
    List.getLast?_concat, hI, hJ, lineSign_mul_abs]

/-- A relation that holds between the `k`-th and `k+1`-st pixel for every `k` holds along
the closed form. -/
theorem linePoints_chain (x0 y0 x1 y1 : Int) (R : Point → Point → Prop)
    (hR : ∀ k : Nat, k < (max |x1 - x0| |y1 - y0|).toNat →
      R ⟨x0 + lineSign x0 x1 * lineI |x1 - x0| |y1 - y0| k,
         y0 + lineSign y0 y1 * lineJ |x1 - x0| |y1 - y0| k⟩
        ⟨x0 + lineSign x0 x1 * lineI |x1 - x0| |y1 - y0| (k + 1),
         y0 + lineSign y0 y1 * lineJ |x1 - x0| |y1 - y0| (k + 1)⟩) :
    List.Chain' R (linePoints x0 y0 x1 y1) := by
  unfold linePoints
  rw [List.chain'_map, List.chain'_range_succ]
  exact hR

/-- One signed unit step towards a target that is still at least one step away. -/
theorem coord_step (c s i d : Int) (hs : s = 1 ∨ s = -1) (h : i + 1 ≤ d) :
    |(c + s * (i + 1)) - (c + s * i)| = 1 ∧
      |(c + s * d) - (c + s * (i + 1))| < |(c + s * d) - (c + s * i)| := by
  rcases hs with rfl | rfl
  · constructor
    · have : (c + 1 * (i + 1)) - (c + 1 * i) = 1 := by ring
      rw [this]; rfl
    · rw [abs_of_nonneg (by linarith), abs_of_nonneg (by linarith)]; linarith
  · constructor
    · have : (c + -1 * (i + 1)) - (c + -1 * i) = -1 := by ring
      rw [this]; rfl
    · rw [abs_of_nonpos (by linarith), abs_of_nonpos (by linarith)]; linarith

/-- Consecutive pixels of the closed form step towards the target. -/
theorem linePoints_stepsToward (x0 y0 x1 y1 : Int) :
    List.Chain' (StepsToward x1 y1) (linePoints x0 y0 x1 y1) := by
  apply linePoints_chain
  intro k hk
  obtain ⟨hI, hJ, hIJ⟩ := lineIdx_step |x1 - x0| |y1 - y0| (abs_nonneg _) (abs_nonneg _) k hk
  have hsx := lineSign_cases x0 x1
  have hsy := lineSign_cases y0 y1
  have hx1 := lineSign_mul_abs x0 x1
  have hy1 := lineSign_mul_abs y0 y1
  refine ⟨?_, ?_, ?_⟩
  · rcases hI with h | ⟨h, hle⟩
    · left; simp only [h]
    · right
      have := coord_step x0 (lineSign x0 x1) (lineI |x1 - x0| |y1 - y0| k) |x1 - x0| hsx
        (by rw [← h]; exact hle)
      rw [hx1] at this
      simp only [h]
      exact this
  · rcases hJ with h | ⟨h, hle⟩
    · left; simp only [h]
    · right
      have := coord_step y0 (lineSign y0 y1) (lineJ |x1 - x0| |y1 - y0| k) |y1 - y0| hsy
        (by rw [← h]; exact hle)
      rw [hy1] at this
      simp only [h]
      exact this
  · intro heq
    injection heq with e1 e2
    rcases hIJ with h | h
    · rw [h] at e1
      rcases hsx with hs | hs <;> rw [hs] at e1 <;> omega
    · rw [h] at e2
      rcases hsy with hs | hs <;> rw [hs] at e2 <;> omega

/-- A step towards the target joins 8-connected neighbours. -/
theorem StepsToward.adjacent {x1 y1 : Int} {p q : Point} (h : StepsToward x1 y1 p q) :
    Adjacent8 p q := by
  obtain ⟨hx, hy, -⟩ := h
  constructor
  · rcases hx with h | ⟨h, -⟩
    · simp [h]
    · exact le_of_eq h
  · rcases hy with h | ⟨h, -⟩
    · simp [h]
    · exact le_of_eq h

/-- Consecutive pixels of the closed form are 8-connected neighbours. -/
theorem linePoints_adjacent (x0 y0 x1 y1 : Int) :
    List.Chain' Adjacent8 (linePoints x0 y0 x1 y1) :=
  (linePoints_stepsToward x0 y0 x1 y1).imp (fun _ _ h => h.adjacent)

/-- The closed form has no repeated pixel. -/
theorem linePoints_nodup (x0 y0 x1 y1 : Int) : (linePoints x0 y0 x1 y1).Nodup := by
  unfold linePoints
  apply List.Nodup.map_on _ (List.nodup_range _)
  intro k _ l _ h
  injection h with e1 e2
  apply lineIdx_inj |x1 - x0| |y1 - y0|
  constructor
  · rcases lineSign_cases x0 x1 with hs | hs <;> rw [hs] at e1 <;> omega
  · rcases lineSign_cases y0 y1 with hs | hs <;> rw [hs] at e2 <;> omega

/-- A vertical line takes no x step. -/
theorem lineI_of_dx_zero (a : Int) (ha : 0 ≤ a) (k : Nat) (hk : k ≤ (max 0 a).toNat) :
    lineI 0 a k = 0 := by
  unfold lineI
  split
  · have : a = 0 := by omega
    subst this
    simp at hk
    simp [hk]
  · apply minorIdx_eq_of _ _ _ _ (by omega) <;> omega

/-- A horizontal line takes no y step. -/
theorem lineJ_of_a_zero (dx : Int) (hdx : 0 ≤ dx) (k : Nat) : lineJ dx 0 k = 0 := by
  unfold lineJ
  rw [if_pos hdx]
  rcases eq_or_lt_of_le hdx with h | h
  · subst h; simp [minorIdx]
  · apply minorIdx_eq_of _ _ _ _ h <;> omega

/-- Reversing a line negates the contribution of its step sign. -/
theorem lineSign_reflect (u v : Int) (i : Int) (h : u = v → i = 0) :
    v + lineSign v u * i = u + v - (u + lineSign u v * i) := by
  unfold lineSign
  by_cases e : u = v
  · rw [h e, e]; simp
  · by_cases l : u < v
    · have l' : ¬ v < u := by omega
      simp only [l, l', if_true, if_false]; ring
    · have l' : v < u := by omega
      simp only [l, l', if_true, if_false]; ring

/-- The closed form of the reversed line is the point reflection of the closed form. -/
theorem linePoints_reverse (x0 y0 x1 y1 : Int) :
    linePoints x1 y1 x0 y0 = (linePoints x0 y0 x1 y1).map (Point.reflectIn x0 y0 x1 y1) := by
  unfold linePoints
  rw [abs_sub_comm x0 x1, abs_sub_comm y0 y1, List.map_map]
  apply List.map_congr_left
  intro k hk
  rw [List.mem_range] at hk
  simp only [Function.comp, Point.reflectIn]
  congr 1
  · apply lineSign_reflect
    intro e
    subst e
    simp only [sub_self, abs_zero]
    apply lineI_of_dx_zero _ (abs_nonneg _)
    simp only [sub_self, abs_zero] at hk
    omega
  · apply lineSign_reflect
    intro e
    subst e
    simp only [sub_self, abs_zero]
    exact lineJ_of_a_zero _ (abs_nonneg _) k

/-- Without a rounding tie at `k`, the minor-axis offsets at `k` and `d - k` add up to the
minor extent. -/
theorem minorIdx_reverse (m d : Int) (k : Nat) (hd : 0 < d) (hk : (k : Int) ≤ d)
    (htie : (2 * m * k + d) % (2 * d) ≠ 0) :
    minorIdx m d (d.toNat - k) = m - minorIdx m d k := by
  obtain ⟨b1, b2⟩ := minorIdx_bounds m d k hd
  have hne : 2 * d * minorIdx m d k ≠ 2 * m * k + d := by
    intro e
    apply htie
    rw [← e]
    exact Int.mul_emod_right _ _
  have hcast : ((d.toNat - k : Nat) : Int) = d - k := by omega
  apply minorIdx_eq_of _ _ _ _ hd
  · rw [hcast]; nlinarith
  · rw [hcast]
    have : 2 * d * minorIdx m d k < 2 * m * k + d := lt_of_le_of_ne b1 hne
    nlinarith

/-- On a tie-free line both step counters are antisymmetric about the middle. -/
theorem lineIdx_reverse (dx a : Int) (hdx : 0 ≤ dx) (ha : 0 ≤ a) (tf : lineTieFree dx a)
    (k : Nat) (hk : k ≤ (max dx a).toNat) :
    lineI dx a ((max dx a).toNat - k) = dx - lineI dx a k ∧
      lineJ dx a ((max dx a).toNat - k) = a - lineJ dx a k := by
  obtain ⟨s1, s2⟩ := lineIdx_start dx a hdx ha
  obtain ⟨e1, e2⟩ := lineIdx_end dx a hdx ha
  rcases eq_or_lt_of_le hk with h | h
  · subst h
    simp [s1, s2, e1, e2]
  · have t := tf k h
    unfold lineI lineJ
    by_cases had : a ≤ dx
    · rw [max_eq_left had, min_eq_right had] at t
      rw [max_eq_left had] at h ⊢
      simp only [had, if_true]
      refine ⟨by omega, minorIdx_reverse a dx k (by omega) (by omega) t⟩
    · have hlt : dx ≤ a := by omega
      rw [max_eq_right hlt, min_eq_left hlt] at t
      rw [max_eq_right hlt] at h ⊢
      simp only [had, if_false]
      refine ⟨minorIdx_reverse dx a k (by omega) (by omega) t, by omega⟩

/-- On a tie-free line the closed form is closed under the point reflection. -/
theorem linePoints_reflect_mem (x0 y0 x1 y1 : Int)
    (tf : lineTieFree |x1 - x0| |y1 - y0|) (p : Point) (hp : p ∈ linePoints x0 y0 x1 y1) :
    Point.reflectIn x0 y0 x1 y1 p ∈ linePoints x0 y0 x1 y1 := by
  unfold linePoints at hp ⊢
  rw [List.mem_map] at hp ⊢
  obtain ⟨k, hk, rfl⟩ := hp
  rw [List.mem_range] at hk
  refine ⟨(max |x1 - x0| |y1 - y0|).toNat - k, by rw [List.mem_range]; omega, ?_⟩
  obtain ⟨r1, r2⟩ := lineIdx_reverse |x1 - x0| |y1 - y0| (abs_nonneg _) (abs_nonneg _) tf k
    (by omega)
  have hx := lineSign_mul_abs x0 x1
  have hy := lineSign_mul_abs y0 y1
  rw [r1, r2]
  simp only [Point.reflectIn, Point.mk.injEq]
  constructor
  · linear_combination hx
  · linear_combination hy

/-- The point reflection is an involution. -/
theorem reflectIn_involutive (x0 y0 x1 y1 : Int) (p : Point) :
    Point.reflectIn x0 y0 x1 y1 (Point.reflectIn x0 y0 x1 y1 p) = p := by
  cases p; simp [Point.reflectIn]

/-- On a tie-free line the closed forms of both directions have the same pixels. -/
theorem linePoints_reverse_mem (x0 y0 x1 y1 : Int)
    (tf : lineTieFree |x1 - x0| |y1 - y0|) (p : Point) :
    p ∈ linePoints x0 y0 x1 y1 ↔ p ∈ linePoints x1 y1 x0 y0 := by
  rw [linePoints_reverse x0 y0 x1 y1, List.mem_map]
  constructor
  · intro hp
    exact ⟨_, linePoints_reflect_mem x0 y0 x1 y1 tf p hp, reflectIn_involutive _ _ _ _ p⟩
  · rintro ⟨q, hq, rfl⟩
    exact linePoints_reflect_mem x0 y0 x1 y1 tf q hq

/-! ## Circle rasteriser: loop invariant -/

/-- Invariant of the circle loop: with `E = x ^ 2 + y ^ 2 - r ^ 2` the decision variable is
`p = E + 2 * x + 1 - y` and `-r ≤ E ≤ r`.  From such a state the loop exits within `y - x`
iterations and every pixel it plots belongs to a symmetric group of an octant pair that
satisfies the same bound. -/
theorem circleLoop_spec (xc yc r : Int) :
    ∀ (fuel : Nat) (x y p : Int), 0 ≤ x → y ≤ r → p = x ^ 2 + y ^ 2 - r ^ 2 + 2 * x + 1 - y →
      -r ≤ x ^ 2 + y ^ 2 - r ^ 2 → x ^ 2 + y ^ 2 - r ^ 2 ≤ r → y - x ≤ fuel →
      ∃ l, circleLoop xc yc fuel x y p = some l ∧
        ∀ q ∈ l, ∃ u v, q ∈ plotSymmetric xc yc u v ∧
          -r ≤ u ^ 2 + v ^ 2 - r ^ 2 ∧ u ^ 2 + v ^ 2 - r ^ 2 ≤ r := by
  intro fuel
  induction fuel with
  | zero =>
    intro x y p _ _ _ _ _ hf
    have : ¬ x < y := by push_cast at hf; omega
    exact ⟨[], by simp [circleLoop, this], by simp⟩
  | succ f ih =>
    intro x y p hx hy hp hlo hhi hf
    by_cases hxy : x < y
    · by_cases hp0 : p < 0
      · obtain ⟨l, hl, hq⟩ := ih (x + 1) y (p + 2 * (x + 1) + 1) (by omega) hy
          (by rw [hp]; ring) (by nlinarith) (by nlinarith) (by push_cast at hf; omega)
        refine ⟨plotSymmetric xc yc (x + 1) y ++ l, by simp [circleLoop, hxy, hp0, hl], ?_⟩
        intro q hqm
        rcases List.mem_append.1 hqm with h | h
        · exact ⟨x + 1, y, h, by nlinarith, by nlinarith⟩
        · exact hq q h
      · obtain ⟨l, hl, hq⟩ := ih (x + 1) (y - 1) (p + 2 * (x + 1) + 1 - 2 * (y - 1)) (by omega)
          (by omega) (by rw [hp]; ring) (by nlinarith) (by nlinarith) (by push_cast at hf; omega)
        refine ⟨plotSymmetric xc yc (x + 1) (y - 1) ++ l, by simp [circleLoop, hxy, hp0, hl], ?_⟩
        intro q hqm
        rcases List.mem_append.1 hqm with h | h
        · exact ⟨x + 1, y - 1, h, by nlinarith, by nlinarith⟩
        · exact hq q h
    · exact ⟨[], by simp [circleLoop, hxy], by simp⟩

/-- Membership in the eight pixels of one symmetric step, in centre-relative offsets. -/
theorem plotSymmetric_mem_iff (xc yc u v a b : Int) :
    (⟨xc + a, yc + b⟩ : Point) ∈ plotSymmetric xc yc u v ↔
      ((a = u ∨ a = -u) ∧ (b = v ∨ b = -v)) ∨ ((a = v ∨ a = -v) ∧ (b = u ∨ b = -u)) := by
  simp only [plotSymmetric, List.mem_cons, Point.mk.injEq, List.mem_singleton, List.not_mem_nil,
    or_false]
  omega

/-- All eight pixels of one symmetric step have the squared distance `x ^ 2 + y ^ 2` from
the centre. -/
theorem plotSymmetric_mem_dist (xc yc u v : Int) (q : Point) (h : q ∈ plotSymmetric xc yc u v) :
    (q.x - xc) ^ 2 + (q.y - yc) ^ 2 = u ^ 2 + v ^ 2 := by
  simp only [plotSymmetric, List.mem_cons, List.mem_singleton, List.not_mem_nil, or_false] at h
  rcases h with h | h | h | h | h | h | h | h <;> subst h <;> simp only [] <;> ring

/-- Every pixel plotted by the circle loop is plotted together with its whole symmetric
group. -/
theorem circleLoop_mem (xc yc : Int) :
    ∀ (fuel : Nat) (x y p : Int) (l : List Point), circleLoop xc yc fuel x y p = some l →
      ∀ q ∈ l, ∃ u v, q ∈ plotSymmetric xc yc u v ∧ ∀ t ∈ plotSymmetric xc yc u v, t ∈ l := by
  intro fuel
  induction fuel with
  | zero =>
    intro x y p l h
    by_cases hxy : x < y
    · simp [circleLoop, hxy] at h
    · simp [circleLoop, hxy] at h
      subst h
      simp
  | succ f ih =>
    intro x y p l h
    by_cases hxy : x < y
    · by_cases hp0 : p < 0
      · simp only [circleLoop, hxy, hp0, if_true, Option.map_eq_some'] at h
        obtain ⟨t, ht, rfl⟩ := h
        intro q hq
        rcases List.mem_append.1 hq with hq | hq
        · exact ⟨x + 1, y, hq, fun t ht => List.mem_append_left _ ht⟩
        · obtain ⟨u, v, h1, h2⟩ := ih _ _ _ _ ht q hq
          exact ⟨u, v, h1, fun t ht => List.mem_append_right _ (h2 t ht)⟩
      · simp only [circleLoop, hxy, hp0, if_true, if_false, Option.map_eq_some'] at h
        obtain ⟨t, ht, rfl⟩ := h
        intro q hq
        rcases List.mem_append.1 hq with hq | hq
        · exact ⟨x + 1, y - 1, hq, fun t ht => List.mem_append_left _ ht⟩
        · obtain ⟨u, v, h1, h2⟩ := ih _ _ _ _ ht q hq
          exact ⟨u, v, h1, fun t ht => List.mem_append_right _ (h2 t ht)⟩
    · simp [circleLoop, hxy] at h
      subst h
      simp

/-- An integer `d` with `r ^ 2 - r ≤ d ≤ r ^ 2 + r` has a square root that rounds to within
one of `r`. -/
theorem round_sqrt_near (d r : Int) (hr : 0 ≤ r) (h1 : r ^ 2 - r ≤ d) (h2 : d ≤ r ^ 2 + r) :
    |round (Real.sqrt (d : ℝ)) - r| ≤ 1 := by
  have hd0 : (0:ℝ) ≤ (d : ℝ) := by
    have : (0:Int) ≤ d := by nlinarith
    exact_mod_cast this
  have hup : Real.sqrt (d : ℝ) ≤ (r : ℝ) + 1 := by
    rw [Real.sqrt_le_left (by positivity)]
    have : (d : ℝ) ≤ (r:ℝ) ^ 2 + r := by exact_mod_cast h2
    have hr' : (0:ℝ) ≤ r := by exact_mod_cast hr
    nlinarith
  have hlo : (r : ℝ) - 1 ≤ Real.sqrt (d : ℝ) := by
    rcases eq_or_lt_of_le hr with h | h
    · rw [← h]; have := Real.sqrt_nonneg (d:ℝ); simp; linarith
    · apply Real.le_sqrt_of_sq_le
      have : ((r:ℝ)) ^ 2 - r ≤ (d : ℝ) := by exact_mod_cast h1
      have hr' : (1:ℝ) ≤ r := by exact_mod_cast h
      nlinarith
  have hround := abs_sub_round (Real.sqrt (d : ℝ))
  rw [abs_le] at hround
  have hlt : |((round (Real.sqrt (d : ℝ)) - r : Int) : ℝ)| < 2 := by
    rw [abs_lt]; push_cast
    constructor <;> linarith [hround.1, hround.2]
  have : |round (Real.sqrt (d : ℝ)) - r| < 2 := by exact_mod_cast hlt
  omega

/-- The circle run terminates within `r` loop iterations; every plotted pixel belongs to a
complete eightfold symmetric group of plotted pixels generated by an octant pair `(u, v)`
whose squared distance from the centre is within `r` of `r ^ 2`. -/
theorem drawCircleMidpoint_spec (xc yc r : Int) (fuel : Nat) (hr : 0 ≤ r)
    (hfuel : r ≤ (fuel : Int)) :
    ∃ l, drawCircleMidpoint fuel xc yc r = some l ∧
      ∀ q ∈ l, ∃ u v, q ∈ plotSymmetric xc yc u v ∧ (∀ t ∈ plotSymmetric xc yc u v, t ∈ l) ∧
        -r ≤ u ^ 2 + v ^ 2 - r ^ 2 ∧ u ^ 2 + v ^ 2 - r ^ 2 ≤ r := by
  obtain ⟨t, ht, hq⟩ := circleLoop_spec xc yc r fuel 0 r (1 - r) (le_refl _) (le_refl _)
    (by ring) (by simp; omega) (by simp; omega) (by omega)
  refine ⟨plotSymmetric xc yc 0 r ++ t, by simp [drawCircleMidpoint, ht], ?_⟩
  intro q hqm
  rcases List.mem_append.1 hqm with h | h
  · exact ⟨0, r, h, fun s hs => List.mem_append_left _ hs, by simp; omega, by simp; omega⟩
  · obtain ⟨u, v, h1, h2⟩ := circleLoop_mem xc yc fuel 0 r (1 - r) t ht q h
    obtain ⟨u', v', h1', h3, h4⟩ := hq q h
    have e := plotSymmetric_mem_dist xc yc u v q h1
    have e' := plotSymmetric_mem_dist xc yc u' v' q h1'
    exact ⟨u, v, h1, fun s hs => List.mem_append_right _ (h2 s hs), by omega, by omega⟩

/-! ## Line rasteriser: error term and 32-bit range -/

/-- The minor-axis offset is never negative. -/
theorem minorIdx_nonneg (m d : Int) (k : Nat) (hm : 0 ≤ m) (hd : 0 < d) :
    0 ≤ minorIdx m d k := by
  unfold minorIdx
  apply Int.ediv_nonneg
  · have : 0 ≤ m * (k : Int) := mul_nonneg hm (by positivity)
    nlinarith
  · omega

/-- Bounds of the doubled error term in major-axis orientation, read off the rounding
bounds of the minor-axis offset. -/
theorem minorIdx_err_bounds (m d : Int) (k : Nat) (hd : 0 < d) :
    d - 2 * m < 2 * (d - m + d * minorIdx m d k - m * k) ∧
      2 * (d - m + d * minorIdx m d k - m * k) ≤ 3 * d - 2 * m := by
  obtain ⟨b1, b2⟩ := minorIdx_bounds m d k hd
  constructor <;> nlinarith

/-- The minor-axis offset grows exactly when the loop's test on the doubled error term
succeeds. -/
theorem minorIdx_succ (m d : Int) (k : Nat) (hm : 0 ≤ m) (hmd : m ≤ d) (hd : 0 < d) :
    minorIdx m d (k + 1) = minorIdx m d k +
      (if 2 * (d - m + d * minorIdx m d k - m * k) ≤ d then 1 else 0) := by
  obtain ⟨b1, b2⟩ := minorIdx_bounds m d k hd
  split
  · rename_i h
    apply minorIdx_eq_of _ _ _ _ hd
    · push_cast; nlinarith
    · push_cast; nlinarith
  · rename_i h
    rw [add_zero]
    apply minorIdx_eq_of _ _ _ _ hd
    · push_cast; nlinarith
    · push_cast; nlinarith

/-- The two tests of the loop body, `e2 >= dy` and `e2 <= dx`, decide exactly whether the x
and y step counters grow from one pixel to the next. -/
theorem lineIdx_succ (dx a : Int) (hdx : 0 ≤ dx) (ha : 0 ≤ a) (k : Nat)
    (hk : k < (max dx a).toNat) :
    lineI dx a (k + 1) = lineI dx a k + (if 2 * lineErrAt dx a k ≥ -a then 1 else 0) ∧
    lineJ dx a (k + 1) = lineJ dx a k + (if 2 * lineErrAt dx a k ≤ dx then 1 else 0) := by
  unfold lineErrAt lineI lineJ
  by_cases had : a ≤ dx
  · rw [max_eq_left had] at hk
    have hpos : 0 < dx := by omega
    obtain ⟨e1, e2⟩ := minorIdx_err_bounds a dx k hpos
    have hs := minorIdx_succ a dx k ha had hpos
    simp only [had, if_true]
    have c1 : 2 * (dx - a + dx * minorIdx a dx k - a * (k : Int)) ≥ -a := by omega
    rw [if_pos c1]
    exact ⟨by push_cast; ring, hs⟩
  · have hlt : dx < a := by omega
    rw [max_eq_right (le_of_lt hlt)] at hk
    have hpos : 0 < a := by omega
    obtain ⟨e1, e2⟩ := minorIdx_err_bounds dx a k hpos
    have hs := minorIdx_succ dx a k hdx (le_of_lt hlt) hpos
    simp only [had, if_false]
    have c2 : 2 * (dx - a + dx * (k : Int) - a * minorIdx dx a k) ≤ dx := by linarith
    rw [if_pos c2]
    refine ⟨?_, by push_cast; ring⟩
    rw [hs]
    congr 1
    by_cases c : 2 * (a - dx + a * minorIdx dx a k - dx * (k : Int)) ≤ a
    · rw [if_pos c, if_pos (by linarith)]
    · rw [if_neg c, if_neg (by linarith)]

/-- The doubled error term is bounded by three times the major extent, at the start of an
iteration and after the first conditional update. -/
theorem lineErrAt_bound (dx a : Int) (hdx : 0 ≤ dx) (ha : 0 ≤ a) (k : Nat) :
    |2 * lineErrAt dx a k| ≤ 3 * max dx a ∧
    |2 * (if 2 * lineErrAt dx a k ≥ -a then lineErrAt dx a k + -a else lineErrAt dx a k)|
      ≤ 3 * max dx a := by
  unfold lineErrAt lineI lineJ
  by_cases had : a ≤ dx
  · rw [max_eq_left had]
    simp only [had, if_true]
    rcases eq_or_lt_of_le hdx with h0 | hpos
    · subst h0
      have : a = 0 := le_antisymm had ha
      subst this
      simp
    · obtain ⟨e1, e2⟩ := minorIdx_err_bounds a dx k hpos
      constructor
      · rw [abs_le]; constructor <;> linarith
      · split <;> (rw [abs_le]; constructor <;> linarith)
  · have hlt : dx < a := by omega
    rw [max_eq_right (le_of_lt hlt)]
    simp only [had, if_false]
    obtain ⟨e1, e2⟩ := minorIdx_err_bounds dx a k (by omega)
    constructor
    · rw [abs_le]; constructor <;> linarith
    · split <;> (rw [abs_le]; constructor <;> linarith)

/-- Both step counters stay between zero and their extent. -/
theorem lineIdx_range (dx a : Int) (hdx : 0 ≤ dx) (ha : 0 ≤ a) (k : Nat)
    (hk : k ≤ (max dx a).toNat) :
    (0 ≤ lineI dx a k ∧ lineI dx a k ≤ dx) ∧ (0 ≤ lineJ dx a k ∧ lineJ dx a k ≤ a) := by
  unfold lineI lineJ
  by_cases had : a ≤ dx
  · rw [max_eq_left had] at hk
    simp only [had, if_true]
    refine ⟨⟨by positivity, by omega⟩, ?_⟩
    rcases eq_or_lt_of_le hdx with h0 | hpos
    · subst h0
      have : a = 0 := le_antisymm had ha
      subst this
      simp [minorIdx]
    · exact ⟨minorIdx_nonneg a dx k ha hpos, minorIdx_le a dx k ha hpos (by omega)⟩
  · have hlt : dx < a := by omega
    rw [max_eq_right (le_of_lt hlt)] at hk
    simp only [had, if_false]
    exact ⟨⟨minorIdx_nonneg dx a k hdx (by omega), minorIdx_le dx a k hdx (by omega) (by omega)⟩,
      by positivity, by omega⟩

/-- One execution of the loop body takes the state of the `k`-th pixel to the state of the
next pixel. -/
theorem lineState_step (x0 y0 sx sy dx a : Int) (hdx : 0 ≤ dx) (ha : 0 ≤ a) (k : Nat)
    (hk : k < (max dx a).toNat) :
    (if 2 * lineErrAt dx a k ≥ -a then x0 + sx * lineI dx a k + sx else x0 + sx * lineI dx a k)
      = x0 + sx * lineI dx a (k + 1) ∧
    (if 2 * lineErrAt dx a k ≤ dx then y0 + sy * lineJ dx a k + sy else y0 + sy * lineJ dx a k)
      = y0 + sy * lineJ dx a (k + 1) ∧
    (if 2 * lineErrAt dx a k ≤ dx
      then (if 2 * lineErrAt dx a k ≥ -a then lineErrAt dx a k + -a else lineErrAt dx a k) + dx
      else (if 2 * lineErrAt dx a k ≥ -a then lineErrAt dx a k + -a else lineErrAt dx a k))
      = lineErrAt dx a (k + 1) := by
  obtain ⟨hI, hJ⟩ := lineIdx_succ dx a hdx ha k hk
  have hE : lineErrAt dx a (k + 1) = dx - a + dx * lineJ dx a (k + 1) - a * lineI dx a (k + 1) :=
    rfl
  have hE0 : lineErrAt dx a k = dx - a + dx * lineJ dx a k - a * lineI dx a k := rfl
  rw [hE, hI, hJ]
  generalize lineErrAt dx a k = e at *
  generalize lineI dx a k = i at *
  generalize lineJ dx a k = j at *
  by_cases c1 : 2 * e ≥ -a <;> by_cases c2 : 2 * e ≤ dx <;>
    simp only [c1, c2, if_true, if_false] <;> refine ⟨by ring, by ring, ?_⟩ <;> rw [hE0] <;> ring

/-- The exit test of the loop succeeds exactly at the last pixel. -/
theorem lineState_target (x0 y0 sx sy dx a : Int) (hsx : sx = 1 ∨ sx = -1)
    (hsy : sy = 1 ∨ sy = -1) (hdx : 0 ≤ dx) (ha : 0 ≤ a) (k : Nat) :
    (x0 + sx * lineI dx a k = x0 + sx * dx ∧ y0 + sy * lineJ dx a k = y0 + sy * a) ↔
      k = (max dx a).toNat := by
  obtain ⟨e1, e2⟩ := lineIdx_end dx a hdx ha
  constructor
  · rintro ⟨h1, h2⟩
    apply lineIdx_inj dx a
    rw [e1, e2]
    constructor
    · rcases hsx with hs | hs <;> rw [hs] at h1 <;> omega
    · rcases hsy with hs | hs <;> rw [hs] at h2 <;> omega
  · intro h
    rw [h, e1, e2]
    exact ⟨rfl, rfl⟩

/-- Started in the state of the `k`-th pixel, the instrumented loop exits after the
remaining iterations and every recorded value of `err` is within the bound. -/
theorem lineLoopErr_bound (x0 y0 sx sy dx a : Int) (hsx : sx = 1 ∨ sx = -1)
    (hsy : sy = 1 ∨ sy = -1) (hdx : 0 ≤ dx) (ha : 0 ≤ a) :
    ∀ (n k fuel : Nat), k + n = (max dx a).toNat → n < fuel →
      ∃ es, lineLoopErr (x0 + sx * dx) (y0 + sy * a) dx (-a) sx sy fuel
          (x0 + sx * lineI dx a k) (y0 + sy * lineJ dx a k) (lineErrAt dx a k) = some es ∧
        ∀ e ∈ es, |2 * e| ≤ 3 * max dx a := by
  intro n
  induction n with
  | zero =>
    intro k fuel hk hf
    obtain ⟨f, rfl⟩ : ∃ f, fuel = f + 1 := ⟨fuel - 1, by omega⟩
    have ht := (lineState_target x0 y0 sx sy dx a hsx hsy hdx ha k).2 (by omega)
    refine ⟨[lineErrAt dx a k], by simp only [lineLoopErr, if_pos ht], ?_⟩
    intro e he
    rw [List.mem_singleton] at he
    rw [he]
    exact (lineErrAt_bound dx a hdx ha k).1
  | succ n ih =>
    intro k fuel hk hf
    obtain ⟨f, rfl⟩ : ∃ f, fuel = f + 1 := ⟨fuel - 1, by omega⟩
    have hne : ¬ (x0 + sx * lineI dx a k = x0 + sx * dx ∧
        y0 + sy * lineJ dx a k = y0 + sy * a) := by
      rw [lineState_target x0 y0 sx sy dx a hsx hsy hdx ha k]
      omega
    obtain ⟨s1, s2, s3⟩ := lineState_step x0 y0 sx sy dx a hdx ha k (by omega)
    obtain ⟨es, hes, hb⟩ := ih (k + 1) f (by omega) (by omega)
    obtain ⟨b1, b2⟩ := lineErrAt_bound dx a hdx ha k
    refine ⟨lineErrAt dx a k ::
      (if 2 * lineErrAt dx a k ≥ -a then lineErrAt dx a k + -a else lineErrAt dx a k) :: es,
      ?_, ?_⟩
    · simp only [lineLoopErr, if_neg hne, s1, s2, s3, hes, Option.map_some']
    · intro e he
      rcases List.mem_cons.1 he with h | he
      · rw [h]; exact b1
      · rcases List.mem_cons.1 he with h | he
        · rw [h]; exact b2
        · exact hb e he

/-- A value of absolute value at most `2^31 - 1` is a defined `int` result. -/
theorem int32_of_range (z : Int) (h : |z| ≤ 2147483647) : int32 z = some z := by
  rw [abs_le] at h
  unfold int32
  rw [if_pos ⟨by omega, h.2⟩]

/-- A conditional `int` update is defined when its result is in range. -/
theorem int32_ite (c : Prop) [Decidable c] (u v : Int)
    (h : |if c then u else v| ≤ 2147483647) :
    (if c then int32 u else some v) = some (if c then u else v) := by
  split
  · rename_i hc; rw [if_pos hc] at h; exact int32_of_range u h
  · rfl

/-- A representable value is a defined `int` result. -/
theorem int32_of_mem (z : Int) (h : InInt32 z) : int32 z = some z := by
  unfold InInt32 at h
  unfold int32
  rw [if_pos h]

/-- A conditional `int` update is defined when its result is representable. -/
theorem int32_ite_mem (c : Prop) [Decidable c] (u v : Int)
    (h : InInt32 (if c then u else v)) :
    (if c then int32 u else some v) = some (if c then u else v) := by
  split
  · rename_i hc; rw [if_pos hc] at h; exact int32_of_mem u h
  · rfl

/-- Simulation: from the state of any pixel of the line, the range-checked loop and the
unbounded loop agree for every budget, provided three times the major extent and all
coordinates between the endpoints fit in 32 bits. -/
theorem lineLoop32_eq (x0 y0 sx sy dx a : Int) (hsx : sx = 1 ∨ sx = -1)
    (hsy : sy = 1 ∨ sy = -1) (hdx : 0 ≤ dx) (ha : 0 ≤ a)
    (hN : 3 * max dx a ≤ 2147483647)
    (hx : ∀ i : Int, 0 ≤ i → i ≤ dx → InInt32 (x0 + sx * i))
    (hy : ∀ j : Int, 0 ≤ j → j ≤ a → InInt32 (y0 + sy * j)) :
    ∀ (fuel k : Nat), k ≤ (max dx a).toNat →
      lineLoop32 (x0 + sx * dx) (y0 + sy * a) dx (-a) sx sy fuel
          (x0 + sx * lineI dx a k) (y0 + sy * lineJ dx a k) (lineErrAt dx a k)
        = lineLoop (x0 + sx * dx) (y0 + sy * a) dx (-a) sx sy fuel
          (x0 + sx * lineI dx a k) (y0 + sy * lineJ dx a k) (lineErrAt dx a k) := by
  intro fuel
  induction fuel with
  | zero => intro k _; simp [lineLoop32, lineLoop]
  | succ f ih =>
    intro k hk
    by_cases ht : x0 + sx * lineI dx a k = x0 + sx * dx ∧ y0 + sy * lineJ dx a k = y0 + sy * a
    · simp only [lineLoop32, lineLoop, if_pos ht]
    · have hlt : k < (max dx a).toNat := by
        rw [lineState_target x0 y0 sx sy dx a hsx hsy hdx ha k] at ht
        omega
      obtain ⟨s1, s2, s3⟩ := lineState_step x0 y0 sx sy dx a hdx ha k hlt
      obtain ⟨b1, b2⟩ := lineErrAt_bound dx a hdx ha k
      obtain ⟨b3, -⟩ := lineErrAt_bound dx a hdx ha (k + 1)
      obtain ⟨⟨i0, i1⟩, ⟨j0, j1⟩⟩ := lineIdx_range dx a hdx ha (k + 1) (by omega)
      have r1 : int32 (2 * lineErrAt dx a k) = some (2 * lineErrAt dx a k) :=
        int32_of_range _ (by linarith)
      have r2 := int32_ite (2 * lineErrAt dx a k ≥ -a) (lineErrAt dx a k + -a)
        (lineErrAt dx a k) (by
          have := abs_nonneg (if 2 * lineErrAt dx a k ≥ -a then lineErrAt dx a k + -a
            else lineErrAt dx a k)
          rw [abs_mul] at b2
          have h2 : |(2 : Int)| = 2 := rfl
          rw [h2] at b2
          linarith)
      have r3 := int32_ite_mem (2 * lineErrAt dx a k ≥ -a) (x0 + sx * lineI dx a k + sx)
        (x0 + sx * lineI dx a k) (by rw [s1]; exact hx _ i0 i1)
      have r4 := int32_ite (2 * lineErrAt dx a k ≤ dx)
        ((if 2 * lineErrAt dx a k ≥ -a then lineErrAt dx a k + -a else lineErrAt dx a k) + dx)
        (if 2 * lineErrAt dx a k ≥ -a then lineErrAt dx a k + -a else lineErrAt dx a k) (by
          rw [s3]
          have := abs_nonneg (lineErrAt dx a (k + 1))
          rw [abs_mul] at b3
          have h2 : |(2 : Int)| = 2 := rfl
          rw [h2] at b3
          linarith)
      have r5 := int32_ite_mem (2 * lineErrAt dx a k ≤ dx) (y0 + sy * lineJ dx a k + sy)
        (y0 + sy * lineJ dx a k) (by rw [s2]; exact hy _ j0 j1)
      simp only [lineLoop32, lineLoop, if_neg ht, r1, Option.some_bind, r2, r3, r4, r5,
        s1, s2, s3]
      rw [ih (k + 1) (by omega)]

/-- The state of pixel `0` is the initial state of the loop. -/
theorem lineState_zero (x0 y0 sx sy dx a : Int) (hdx : 0 ≤ dx) (ha : 0 ≤ a) :
    x0 + sx * lineI dx a 0 = x0 ∧ y0 + sy * lineJ dx a 0 = y0 ∧ lineErrAt dx a 0 = dx + -a := by
  obtain ⟨hI, hJ⟩ := lineIdx_start dx a hdx ha
  unfold lineErrAt
  rw [hI, hJ]
  refine ⟨by ring, by ring, by ring⟩

/-- Every value held by `err` during a run of the line rasteriser is within the bound. -/
theorem drawLineBresenhamErr_bound (x0 y0 x1 y1 : Int) (fuel : Nat)
    (hfuel : max |x1 - x0| |y1 - y0| < (fuel : Int)) :
    ∃ es, drawLineBresenhamErr fuel x0 y0 x1 y1 = some es ∧
      ∀ e ∈ es, |2 * e| ≤ 3 * max |x1 - x0| |y1 - y0| := by
  have hdx0 : 0 ≤ |x1 - x0| := abs_nonneg _
  have ha0 : 0 ≤ |y1 - y0| := abs_nonneg _
  have key := lineLoopErr_bound x0 y0 (lineSign x0 x1) (lineSign y0 y1) |x1 - x0| |y1 - y0|
    (lineSign_cases _ _) (lineSign_cases _ _) (abs_nonneg _) (abs_nonneg _)
    (max |x1 - x0| |y1 - y0|).toNat 0 fuel (by omega) (by omega)
  obtain ⟨z1, z2, z3⟩ := lineState_zero x0 y0 (lineSign x0 x1) (lineSign y0 y1) |x1 - x0|
    |y1 - y0| (abs_nonneg _) (abs_nonneg _)
  rw [z1, z2, z3, lineSign_mul_abs, lineSign_mul_abs] at key
  exact key

/-- A coordinate between two representable endpoints is representable. -/
theorem between_of_sign (u v s d i : Int) (hs : s = 1 ∨ s = -1) (hv : u + s * d = v)
    (hu : InInt32 u) (hv' : InInt32 v) (h0 : 0 ≤ i) (h1 : i ≤ d) :
    InInt32 (u + s * i) := by
  unfold InInt32 at hu hv' ⊢
  rcases hs with rfl | rfl <;> constructor <;> omega

/-- Within `LineInRange` the range-checked line rasteriser agrees with the unbounded one for
every budget: no `int` operation of the source overflows. -/
theorem drawLineBresenham32_of_range (x0 y0 x1 y1 : Int) (fuel : Nat)
    (h : LineInRange x0 y0 x1 y1) :
    drawLineBresenham32 fuel x0 y0 x1 y1 = drawLineBresenham fuel x0 y0 x1 y1 := by
  obtain ⟨hx0, hy0, hx1, hy1, hN⟩ := h
  have hX := lineSign_mul_abs x0 x1
  have hY := lineSign_mul_abs y0 y1
  have hdx0 : 0 ≤ |x1 - x0| := abs_nonneg _
  have ha0 : 0 ≤ |y1 - y0| := abs_nonneg _
  have hdx : |x1 - x0| ≤ max |x1 - x0| |y1 - y0| := le_max_left _ _
  have ha : |y1 - y0| ≤ max |x1 - x0| |y1 - y0| := le_max_right _ _
  have hwx := neg_abs_le (x1 - x0)
  have hwx' := le_abs_self (x1 - x0)
  have hwy := neg_abs_le (y1 - y0)
  have hwy' := le_abs_self (y1 - y0)
  have key := lineLoop32_eq x0 y0 (lineSign x0 x1) (lineSign y0 y1) |x1 - x0| |y1 - y0|
    (lineSign_cases _ _) (lineSign_cases _ _) hdx0 ha0 hN
    (fun i h0 h1 => between_of_sign x0 x1 _ _ i (lineSign_cases _ _) hX hx0 hx1 h0 h1)
    (fun j h0 h1 => between_of_sign y0 y1 _ _ j (lineSign_cases _ _) hY hy0 hy1 h0 h1)
    fuel 0 (Nat.zero_le _)
  obtain ⟨z1, z2, z3⟩ := lineState_zero x0 y0 (lineSign x0 x1) (lineSign y0 y1) |x1 - x0|
    |y1 - y0| hdx0 ha0
  rw [z1, z2, z3, hX, hY] at key
  have r1 : int32 (x1 - x0) = some (x1 - x0) := int32_of_mem _ ⟨by omega, by omega⟩
  have r2 : int32 |x1 - x0| = some |x1 - x0| := int32_of_mem _ ⟨by omega, by omega⟩
  have r3 : int32 (y1 - y0) = some (y1 - y0) := int32_of_mem _ ⟨by omega, by omega⟩
  have r4 : int32 |y1 - y0| = some |y1 - y0| := int32_of_mem _ ⟨by omega, by omega⟩
  have r5 : int32 (-|y1 - y0|) = some (-|y1 - y0|) := int32_of_mem _ ⟨by omega, by omega⟩
  have r6 : int32 (|x1 - x0| + -|y1 - y0|) = some (|x1 - x0| + -|y1 - y0|) :=
    int32_of_mem _ ⟨by omega, by omega⟩
  unfold drawLineBresenham32 drawLineBresenham
  simp only [r1, r2, r3, r4, r5, r6, Option.some_bind]
  exact key

/-- Endpoints with coordinates of absolute value at most `2^28` are within `LineInRange`. -/
theorem lineInRange_of_abs (x0 y0 x1 y1 : Int)
    (hx0 : |x0| ≤ 268435456) (hy0 : |y0| ≤ 268435456)
    (hx1 : |x1| ≤ 268435456) (hy1 : |y1| ≤ 268435456) : LineInRange x0 y0 x1 y1 := by
  have hdx : |x1 - x0| ≤ 536870912 := by
    rw [abs_le] at hx0 hx1 ⊢; constructor <;> omega
  have ha : |y1 - y0| ≤ 536870912 := by
    rw [abs_le] at hy0 hy1 ⊢; constructor <;> omega
  have hmax : max |x1 - x0| |y1 - y0| ≤ 536870912 := max_le hdx ha
  rw [abs_le] at hx0 hy0 hx1 hy1
  refine ⟨⟨by omega, by omega⟩, ⟨by omega, by omega⟩, ⟨by omega, by omega⟩,
    ⟨by omega, by omega⟩, by omega⟩

/-- For endpoints with coordinates of absolute value at most `2^28` the range-checked line
rasteriser agrees with the unbounded one for every budget. -/
theorem drawLineBresenham32_eq (x0 y0 x1 y1 : Int) (fuel : Nat)
    (hx0 : |x0| ≤ 268435456) (hy0 : |y0| ≤ 268435456)
    (hx1 : |x1| ≤ 268435456) (hy1 : |y1| ≤ 268435456) :
    drawLineBresenham32 fuel x0 y0 x1 y1 = drawLineBresenham fuel x0 y0 x1 y1 :=
  drawLineBresenham32_of_range x0 y0 x1 y1 fuel (lineInRange_of_abs x0 y0 x1 y1 hx0 hy0 hx1 hy1)

/-- The closed form of the line from `(10, 12)` to `(26, 22)` drawn by `main`. -/
theorem linePoints_scenario : linePoints 10 12 26 22 =
    [⟨10, 12⟩, ⟨11, 13⟩, ⟨12, 13⟩, ⟨13, 14⟩, ⟨14, 15⟩, ⟨15, 15⟩, ⟨16, 16⟩, ⟨17, 16⟩, ⟨18, 17⟩,
     ⟨19, 18⟩, ⟨20, 18⟩, ⟨21, 19⟩, ⟨22, 20⟩, ⟨23, 20⟩, ⟨24, 21⟩, ⟨25, 21⟩, ⟨26, 22⟩] := by
  decide

/-- Within `LineInRange` and with a sufficient budget, the range-checked line rasteriser
returns the closed form. -/
theorem drawLineBresenham32_run (x0 y0 x1 y1 : Int) (fuel : Nat)
    (h : LineInRange x0 y0 x1 y1) (hfuel : max |x1 - x0| |y1 - y0| < (fuel : Int)) :
    drawLineBresenham32 fuel x0 y0 x1 y1 = some (linePoints x0 y0 x1 y1) := by
  rw [drawLineBresenham32_of_range x0 y0 x1 y1 fuel h]
  exact drawLineBresenham_eq x0 y0 x1 y1 fuel hfuel

/-- The range of a line is the range of the reversed line. -/
theorem LineInRange.symm {x0 y0 x1 y1 : Int} (h : LineInRange x0 y0 x1 y1) :
    LineInRange x1 y1 x0 y0 := by
  obtain ⟨a, b, c, d, e⟩ := h
  refine ⟨c, d, a, b, ?_⟩
  rw [abs_sub_comm x0 x1, abs_sub_comm y0 y1]
  exact e

/-- A line from a representable point to itself plots that point. -/
theorem drawLineBresenham32_self (x0 y0 : Int) (fuel : Nat) (hx : InInt32 x0) (hy : InInt32 y0)
    (hfuel : 0 < fuel) :
    drawLineBresenham32 fuel x0 y0 x0 y0 = some [⟨x0, y0⟩] := by
  have h : LineInRange x0 y0 x0 y0 := ⟨hx, hy, hx, hy, by simp⟩
  rw [drawLineBresenham32_of_range x0 y0 x0 y0 fuel h]
  obtain ⟨f, rfl⟩ : ∃ f, fuel = f + 1 := ⟨fuel - 1, by omega⟩
  simp [drawLineBresenham, lineLoop]

/-! ## Circle rasteriser: budget, length and 32-bit range -/

/-- A run of the circle loop that exits within a budget exits with the same trace within
any larger budget. -/
theorem circleLoop_fuel_mono (xc yc : Int) :
    ∀ (f : Nat) (x y p : Int) (l : List Point), circleLoop xc yc f x y p = some l →
      ∀ g : Nat, f ≤ g → circleLoop xc yc g x y p = some l := by
  intro f
  induction f with
  | zero =>
    intro x y p l h g _
    by_cases hxy : x < y
    · simp [circleLoop, hxy] at h
    · cases g <;> simpa [circleLoop, hxy] using h
  | succ f ih =>
    intro x y p l h g hg
    obtain ⟨g, rfl⟩ : ∃ g', g = g' + 1 := ⟨g - 1, by omega⟩
    by_cases hxy : x < y
    · by_cases hp0 : p < 0
      · simp only [circleLoop, hxy, hp0, if_true, Option.map_eq_some'] at h ⊢
        obtain ⟨t, ht, rfl⟩ := h
        exact ⟨t, ih _ _ _ _ ht g (by omega), rfl⟩
      · simp only [circleLoop, hxy, hp0, if_true, if_false, Option.map_eq_some'] at h ⊢
        obtain ⟨t, ht, rfl⟩ := h
        exact ⟨t, ih _ _ _ _ ht g (by omega), rfl⟩
    · simpa [circleLoop, hxy] using h

/-- The circle loop plots at most eight pixels per unit of `y - x`. -/
theorem circleLoop_length (xc yc : Int) :
    ∀ (f : Nat) (x y p : Int) (l : List Point), circleLoop xc yc f x y p = some l →
      (l.length : Int) ≤ 8 * max (y - x) 0 := by
  intro f
  induction f with
  | zero =>
    intro x y p l h
    by_cases hxy : x < y
    · simp [circleLoop, hxy] at h
    · simp [circleLoop, hxy] at h
      subst h
      simp
  | succ f ih =>
    intro x y p l h
    by_cases hxy : x < y
    · have hm : max (y - x) 0 = y - x := max_eq_left (by omega)
      by_cases hp0 : p < 0
      · simp only [circleLoop, hxy, hp0, if_true, Option.map_eq_some'] at h
        obtain ⟨t, ht, rfl⟩ := h
        have := ih _ _ _ _ ht
        have h2 : max (y - (x + 1)) 0 = y - (x + 1) := max_eq_left (by omega)
        rw [h2] at this
        rw [hm]
        simp only [List.length_append, plotSymmetric, List.length_cons, List.length_nil]
        push_cast
        omega
      · simp only [circleLoop, hxy, hp0, if_true, if_false, Option.map_eq_some'] at h
        obtain ⟨t, ht, rfl⟩ := h
        have := ih _ _ _ _ ht
        have h2 : max (y - 1 - (x + 1)) 0 ≤ y - x - 1 := max_le (by omega) (by omega)
        rw [hm]
        simp only [List.length_append, plotSymmetric, List.length_cons, List.length_nil]
        push_cast
        omega
    · simp [circleLoop, hxy] at h
      subst h
      simp

/-- A run of the circle rasteriser starts with the symmetric step of `(0, r)`. -/
theorem drawCircleMidpoint_prefix (xc yc r : Int) (fuel : Nat) (l : List Point)
    (h : drawCircleMidpoint fuel xc yc r = some l) :
    ∃ t, circleLoop xc yc fuel 0 r (1 - r) = some t ∧ l = plotSymmetric xc yc 0 r ++ t := by
  simp only [drawCircleMidpoint, Option.map_eq_some'] at h
  obtain ⟨t, ht, rfl⟩ := h
  exact ⟨t, ht, rfl⟩

/-- A `plot` call with representable arguments is defined. -/
theorem plot32_of_mem (x y : Int) (hx : InInt32 x) (hy : InInt32 y) :
    plot32 x y = some ⟨x, y⟩ := by
  simp [plot32, int32_of_mem _ hx, int32_of_mem _ hy]

/-- Within `SymInRange` the range-checked symmetric step is defined and plots the eight
points of the unbounded model. -/
theorem plotSymmetric32_of_range (xc yc x y : Int) (h : SymInRange xc yc x y) :
    plotSymmetric32 xc yc x y = some (plotSymmetric xc yc x y) := by
  obtain ⟨h1, h2, h3, h4, h5, h6, h7, h8⟩ := h
  simp only [plotSymmetric32, plotSymmetric, plot32_of_mem _ _ h1 h3, plot32_of_mem _ _ h2 h3,
    plot32_of_mem _ _ h1 h4, plot32_of_mem _ _ h2 h4, plot32_of_mem _ _ h5 h7,
    plot32_of_mem _ _ h6 h7, plot32_of_mem _ _ h5 h8, plot32_of_mem _ _ h6 h8,
    Option.some_bind, Option.map_some']

/-- Offsets of absolute value at most `r` stay within the extreme coordinates. -/
theorem symInRange_of_le (xc yc r x y : Int)
    (h1 : InInt32 (xc - r)) (h2 : InInt32 (xc + r)) (h3 : InInt32 (yc - r))
    (h4 : InInt32 (yc + r)) (hx : -r ≤ x ∧ x ≤ r) (hy : -r ≤ y ∧ y ≤ r) :
    SymInRange xc yc x y := by
  unfold SymInRange InInt32 at *
  omega

/-- Simulation: from every state that satisfies the loop invariant, the range-checked circle
loop and the unbounded loop agree for every budget. -/
theorem circleLoop32_eq (xc yc r : Int) (hc : CircleInRange xc yc r) :
    ∀ (fuel : Nat) (x y p : Int), 0 ≤ x → y ≤ r →
      p = x ^ 2 + y ^ 2 - r ^ 2 + 2 * x + 1 - y →
      -r ≤ x ^ 2 + y ^ 2 - r ^ 2 → x ^ 2 + y ^ 2 - r ^ 2 ≤ r →
      circleLoop32 xc yc fuel x y p = circleLoop xc yc fuel x y p := by
  obtain ⟨hr, h4, c1, c2, c3, c4⟩ := hc
  intro fuel
  induction fuel with
  | zero => intro x y p _ _ _ _ _; simp [circleLoop32, circleLoop]
  | succ f ih =>
    intro x y p hx hy hp hlo hhi
    by_cases hxy : x < y
    · have rx : int32 (x + 1) = some (x + 1) := int32_of_mem _ ⟨by omega, by omega⟩
      have r2x : int32 (2 * (x + 1)) = some (2 * (x + 1)) :=
        int32_of_mem _ ⟨by omega, by omega⟩
      have rp1 : int32 (p + 2 * (x + 1)) = some (p + 2 * (x + 1)) :=
        int32_of_mem _ ⟨by rw [hp]; nlinarith, by rw [hp]; nlinarith⟩
      have rp2 : int32 (p + 2 * (x + 1) + 1) = some (p + 2 * (x + 1) + 1) :=
        int32_of_mem _ ⟨by rw [hp]; nlinarith, by rw [hp]; nlinarith⟩
      by_cases hp0 : p < 0
      · have rs := plotSymmetric32_of_range xc yc (x + 1) y
          (symInRange_of_le xc yc r _ _ c1 c2 c3 c4 ⟨by omega, by omega⟩ ⟨by omega, by omega⟩)
        have := ih (x + 1) y (p + 2 * (x + 1) + 1) (by omega) hy
          (by rw [hp]; ring) (by nlinarith) (by nlinarith)
        simp only [circleLoop32, circleLoop, hxy, hp0, if_true, rx, r2x, rp1, rp2, rs,
          Option.some_bind, this]
      · have ry : int32 (y - 1) = some (y - 1) := int32_of_mem _ ⟨by omega, by omega⟩
        have r2y : int32 (2 * (y - 1)) = some (2 * (y - 1)) :=
          int32_of_mem _ ⟨by omega, by omega⟩
        have rp3 : int32 (p + 2 * (x + 1) + 1 - 2 * (y - 1))
            = some (p + 2 * (x + 1) + 1 - 2 * (y - 1)) :=
          int32_of_mem _ ⟨by rw [hp]; nlinarith, by rw [hp]; nlinarith⟩
        have rs := plotSymmetric32_of_range xc yc (x + 1) (y - 1)
          (symInRange_of_le xc yc r _ _ c1 c2 c3 c4 ⟨by omega, by omega⟩ ⟨by omega, by omega⟩)
        have := ih (x + 1) (y - 1) (p + 2 * (x + 1) + 1 - 2 * (y - 1)) (by omega)
          (by omega) (by rw [hp]; ring) (by nlinarith) (by nlinarith)
        simp only [circleLoop32, circleLoop, hxy, hp0, if_true, if_false, rx, ry, r2x, rp1,
          rp2, r2y, rp3, rs, Option.some_bind, this]
    · simp [circleLoop32, circleLoop, hxy]

/-- Within `CircleInRange` the range-checked circle rasteriser agrees with the unbounded
one for every budget: no `int` operation of the source overflows. -/
theorem drawCircleMidpoint32_of_range (xc yc r : Int) (fuel : Nat)
    (hc : CircleInRange xc yc r) :
    drawCircleMidpoint32 fuel xc yc r = drawCircleMidpoint fuel xc yc r := by
  have key := circleLoop32_eq xc yc r hc fuel 0 r (1 - r) (le_refl _) (le_refl _) (by ring)
    (by have := hc.1; simp; omega) (by have := hc.1; simp; omega)
  obtain ⟨hr, h4, c1, c2, c3, c4⟩ := hc
  have rp : int32 (1 - r) = some (1 - r) := int32_of_mem _ ⟨by omega, by omega⟩
  have rs := plotSymmetric32_of_range xc yc 0 r
    (symInRange_of_le xc yc r _ _ c1 c2 c3 c4 ⟨by omega, by omega⟩ ⟨by omega, by omega⟩)
  simp only [drawCircleMidpoint32, drawCircleMidpoint, rp, rs, Option.some_bind, key]

/-! ## Overflow-free runs are runs of the unbounded model -/

/-- A checked `int` operation that returns a value returns the exact integer result. -/
theorem int32_eq_some (z w : Int) (h : int32 z = some w) : w = z := by
  unfold int32 at h
  split at h
  · exact (Option.some.inj h).symm
  · exact Option.noConfusion h

/-- A conditional checked update that returns a value returns the exact conditional result. -/
theorem int32_ite_eq_some (c : Prop) [Decidable c] (u v w : Int)
    (h : (if c then int32 u else some v) = some w) : w = if c then u else v := by
  split at h
  · rename_i hc; rw [if_pos hc]; exact int32_eq_some u w h
  · rename_i hc; rw [if_neg hc]; exact (Option.some.inj h).symm

/-- Soundness of the checked line loop: a run in which no `int` operation overflows is a
run of the unbounded loop with the same trace. -/
theorem lineLoop32_sound (x1 y1 dx dy sx sy : Int) :
    ∀ (fuel : Nat) (x y err : Int) (l : List Point),
      lineLoop32 x1 y1 dx dy sx sy fuel x y err = some l →
      lineLoop x1 y1 dx dy sx sy fuel x y err = some l := by
  intro fuel
  induction fuel with
  | zero => intro x y err l h; simp [lineLoop32] at h
  | succ f ih =>
    intro x y err l h
    by_cases ht : x = x1 ∧ y = y1
    · simp only [lineLoop32, if_pos ht] at h
      simp only [lineLoop, if_pos ht]
      exact h
    · simp only [lineLoop32, if_neg ht, Option.bind_eq_some, Option.map_eq_some'] at h
      obtain ⟨e2, h1, err1, h2, xn, h3, err2, h4, yn, h5, t, h6, rfl⟩ := h
      have a1 := int32_eq_some _ _ h1
      subst a1
      have a2 := int32_ite_eq_some _ _ _ _ h2
      have a3 := int32_ite_eq_some _ _ _ _ h3
      subst a2 a3
      have a4 := int32_ite_eq_some _ _ _ _ h4
      have a5 := int32_ite_eq_some _ _ _ _ h5
      subst a4 a5
      simp only [lineLoop, if_neg ht, ih _ _ _ _ h6, Option.map_some']

/-- A run of the line loop that exits within a budget exits with the same trace within any
larger budget. -/
theorem lineLoop_fuel_mono (x1 y1 dx dy sx sy : Int) :
    ∀ (f : Nat) (x y err : Int) (l : List Point),
      lineLoop x1 y1 dx dy sx sy f x y err = some l →
      ∀ g : Nat, f ≤ g → lineLoop x1 y1 dx dy sx sy g x y err = some l := by
  intro f
  induction f with
  | zero => intro x y err l h; simp [lineLoop] at h
  | succ f ih =>
    intro x y err l h g hg
    obtain ⟨g, rfl⟩ : ∃ g', g = g' + 1 := ⟨g - 1, by omega⟩
    by_cases ht : x = x1 ∧ y = y1
    · simp only [lineLoop, if_pos ht] at h ⊢
      exact h
    · simp only [lineLoop, if_neg ht, Option.map_eq_some'] at h ⊢
      obtain ⟨t, h1, rfl⟩ := h
      exact ⟨t, ih _ _ _ _ h1 g (by omega), rfl⟩

/-- Soundness of the checked line rasteriser: a completed overflow-free run plots the trace
of the unbounded model. -/
theorem drawLineBresenham32_sound (x0 y0 x1 y1 : Int) (fuel : Nat) (l : List Point)
    (h : drawLineBresenham32 fuel x0 y0 x1 y1 = some l) :
    drawLineBresenham fuel x0 y0 x1 y1 = some l := by
  simp only [drawLineBresenham32, Option.bind_eq_some] at h
  obtain ⟨wx, h1, dx, h2, wy, h3, ay, h4, dy, h5, err, h6, h7⟩ := h
  have a1 := int32_eq_some _ _ h1
  subst a1
  have a2 := int32_eq_some _ _ h2
  subst a2
  have a3 := int32_eq_some _ _ h3
  subst a3
  have a4 := int32_eq_some _ _ h4
  subst a4
  have a5 := int32_eq_some _ _ h5
  subst a5
  have a6 := int32_eq_some _ _ h6
  subst a6
  exact lineLoop32_sound _ _ _ _ _ _ _ _ _ _ _ h7

/-- Every completed overflow-free run of `drawLineBresenham` plots the closed-form pixel
sequence `linePoints`, whatever the endpoints. -/
theorem drawLineBresenham32_closed (x0 y0 x1 y1 : Int) (fuel : Nat) (l : List Point)
    (h : drawLineBresenham32 fuel x0 y0 x1 y1 = some l) : l = linePoints x0 y0 x1 y1 := by
  have h1 := drawLineBresenham32_sound x0 y0 x1 y1 fuel l h
  have h0 : 0 ≤ max |x1 - x0| |y1 - y0| := le_max_of_le_left (abs_nonneg _)
  have h2 := lineLoop_fuel_mono _ _ _ _ _ _ fuel _ _ _ l h1
    (fuel + ((max |x1 - x0| |y1 - y0|).toNat + 1)) (by omega)
  have h3 := drawLineBresenham_eq x0 y0 x1 y1 (fuel + ((max |x1 - x0| |y1 - y0|).toNat + 1))
    (by push_cast; omega)
  unfold drawLineBresenham at h3
  rw [h2] at h3
  exact Option.some.inj h3

/-- A checked `plot` call that succeeds records the pixel it was given. -/
theorem plot32_eq_some (x y : Int) (q : Point) (h : plot32 x y = some q) : q = ⟨x, y⟩ := by
  simp only [plot32, Option.bind_eq_some, Option.map_eq_some'] at h
  obtain ⟨a, h1, b, h2, rfl⟩ := h
  rw [int32_eq_some _ _ h1, int32_eq_some _ _ h2]

/-- A checked `plotSymmetric` call that succeeds plots the eight pixels of the unbounded model. -/
theorem plotSymmetric32_sound (xc yc x y : Int) (l : List Point)
    (h : plotSymmetric32 xc yc x y = some l) : l = plotSymmetric xc yc x y := by
  simp only [plotSymmetric32, Option.bind_eq_some, Option.map_eq_some'] at h
  obtain ⟨q1, h1, q2, h2, q3, h3, q4, h4, q5, h5, q6, h6, q7, h7, q8, h8, rfl⟩ := h
  rw [plot32_eq_some _ _ _ h1, plot32_eq_some _ _ _ h2, plot32_eq_some _ _ _ h3,
    plot32_eq_some _ _ _ h4, plot32_eq_some _ _ _ h5, plot32_eq_some _ _ _ h6,
    plot32_eq_some _ _ _ h7, plot32_eq_some _ _ _ h8]
  rfl

/-- Soundness of the checked circle loop: a run in which no `int` operation overflows is a
run of the unbounded loop with the same trace. -/
theorem circleLoop32_sound (xc yc : Int) :
    ∀ (fuel : Nat) (x y p : Int) (l : List Point),
      circleLoop32 xc yc fuel x y p = some l → circleLoop xc yc fuel x y p = some l := by
  intro fuel
  induction fuel with
  | zero =>
    intro x y p l h
    by_cases hxy : x < y
    · simp [circleLoop32, hxy] at h
    · simp only [circleLoop32, circleLoop, hxy, if_false] at h ⊢
      exact h
  | succ f ih =>
    intro x y p l h
    by_cases hxy : x < y
    · by_cases hp0 : p < 0
      · simp only [circleLoop32, hxy, hp0, if_true, Option.bind_eq_some,
          Option.map_eq_some'] at h
        obtain ⟨x', h1, t1, h2, t2, h3, p', h4, s, h5, t, h6, rfl⟩ := h
        have a1 := int32_eq_some _ _ h1
        subst a1
        have a2 := int32_eq_some _ _ h2
        subst a2
        have a3 := int32_eq_some _ _ h3
        subst a3
        have a4 := int32_eq_some _ _ h4
        subst a4
        have a5 := plotSymmetric32_sound _ _ _ _ _ h5
        subst a5
        simp only [circleLoop, hxy, hp0, if_true, ih _ _ _ _ h6, Option.map_some']
      · simp only [circleLoop32, hxy, hp0, if_true, if_false, Option.bind_eq_some,
          Option.map_eq_some'] at h
        obtain ⟨x', h1, y', g1, t1, h2, t2, h3, t3, h4, t4, g4, p', k4, s, h5, t, h6, rfl⟩ := h
        have a1 := int32_eq_some _ _ h1
        subst a1
        have b1 := int32_eq_some _ _ g1
        subst b1
        have a2 := int32_eq_some _ _ h2
        subst a2
        have a3 := int32_eq_some _ _ h3
        subst a3
        have a4 := int32_eq_some _ _ h4
        subst a4
        have b4 := int32_eq_some _ _ g4
        subst b4
        have c4 := int32_eq_some _ _ k4
        subst c4
        have a5 := plotSymmetric32_sound _ _ _ _ _ h5
        subst a5
        simp only [circleLoop, hxy, hp0, if_true, if_false, ih _ _ _ _ h6, Option.map_some']
    · simp only [circleLoop32, circleLoop, hxy, if_false] at h ⊢
      exact h

/-- Soundness of the checked circle rasteriser: a completed overflow-free run plots the
trace of the unbounded model. -/
theorem drawCircleMidpoint32_sound (xc yc r : Int) (fuel : Nat) (l : List Point)
    (h : drawCircleMidpoint32 fuel xc yc r = some l) :
    drawCircleMidpoint fuel xc yc r = some l := by
  simp only [drawCircleMidpoint32, Option.bind_eq_some, Option.map_eq_some'] at h
  obtain ⟨p, h1, s, h2, t, h3, rfl⟩ := h
  have a1 := int32_eq_some _ _ h1
  subst a1
  have a2 := plotSymmetric32_sound _ _ _ _ _ h2
  subst a2
  simp only [drawCircleMidpoint, circleLoop32_sound _ _ _ _ _ _ _ h3, Option.map_some']

/-- A run of the circle rasteriser that returns within a budget returns the same trace within
any larger budget. -/
theorem drawCircleMidpoint_fuel_mono (xc yc r : Int) (f g : Nat) (l : List Point)
    (h : drawCircleMidpoint f xc yc r = some l) (hg : f ≤ g) :
    drawCircleMidpoint g xc yc r = some l := by
  simp only [drawCircleMidpoint, Option.map_eq_some'] at h ⊢
  obtain ⟨t, h1, rfl⟩ := h
  exact ⟨t, circleLoop_fuel_mono xc yc _ _ _ _ _ h1 g hg, rfl⟩

/-- For `r ≥ 0`, every pixel of a completed overflow-free run of `drawCircleMidpoint` belongs
to a symmetric group `plotSymmetric xc yc u v` that is plotted in full and whose generator
satisfies `|u² + v² - r²| ≤ r`. -/
theorem drawCircleMidpoint32_spec (xc yc r : Int) (fuel : Nat) (hr : 0 ≤ r) (l : List Point)
    (h : drawCircleMidpoint32 fuel xc yc r = some l) :
    ∀ q ∈ l, ∃ u v, q ∈ plotSymmetric xc yc u v ∧ (∀ t ∈ plotSymmetric xc yc u v, t ∈ l) ∧
        -r ≤ u ^ 2 + v ^ 2 - r ^ 2 ∧ u ^ 2 + v ^ 2 - r ^ 2 ≤ r := by
  have h1 := drawCircleMidpoint32_sound xc yc r fuel l h
  have h2 := drawCircleMidpoint_fuel_mono xc yc r fuel (fuel + r.toNat) l h1 (by omega)
  obtain ⟨l', hl', hq⟩ := drawCircleMidpoint_spec xc yc r (fuel + r.toNat) hr
    (by push_cast; omega)
  rw [h2] at hl'
  rw [Option.some.inj hl']
  exact hq

/-! ## Rotation: rounding analysis at the right angles -/

/-- Counterexample to C1 as stated: from `(0, 0)` to `(2^30, 0)` the first `2 * err` is
`2^31`, which is not a C `int`; no budget yields a pixel sequence that ends at the target. -/
theorem drawLineBresenham32_endpoints_overflow :
    ¬ ∃ (fuel : Nat) (l : List Point),
      drawLineBresenham32 fuel 0 0 1073741824 0 = some l ∧ l ≠ [] ∧
        l.head? = some ⟨0, 0⟩ ∧ l.getLast? = some ⟨1073741824, 0⟩ := by
  have key : ∀ fuel, drawLineBresenham32 fuel 0 0 1073741824 0 = none := by
    intro fuel; cases fuel <;> rfl
  rintro ⟨fuel, l, h, -⟩
  rw [key] at h
  exact Option.noConfusion h

/-- Claim C1 as amended: whenever no `int` operation of `drawLineBresenham` overflows, the
plotted pixel sequence is non-empty, its first element is `(x0, y0)` and its last element is
`(x1, y1)`; and no operation overflows, and the loop exits within the budget, for `int`
endpoints with `3 * max |x1 - x0| |y1 - y0| ≤ 2^31 - 1` and a budget of more than
`max |x1 - x0| |y1 - y0|` loop iterations. -/
theorem drawLineBresenham32_endpoints (x0 y0 x1 y1 : Int) (fuel : Nat) :
    (∀ l, drawLineBresenham32 fuel x0 y0 x1 y1 = some l →
      l ≠ [] ∧ l.head? = some ⟨x0, y0⟩ ∧ l.getLast? = some ⟨x1, y1⟩) ∧
    (LineInRange x0 y0 x1 y1 → max |x1 - x0| |y1 - y0| < (fuel : Int) →
      ∃ l, drawLineBresenham32 fuel x0 y0 x1 y1 = some l) := by
  refine ⟨?_, fun hr hfuel => ⟨_, drawLineBresenham32_run x0 y0 x1 y1 fuel hr hfuel⟩⟩
  intro l h
  rw [drawLineBresenham32_closed x0 y0 x1 y1 fuel l h]
  refine ⟨?_, linePoints_head x0 y0 x1 y1, linePoints_getLast x0 y0 x1 y1⟩
  intro h0
  have := linePoints_head x0 y0 x1 y1
  rw [h0] at this
  simp at this

/-- Witness for the amended C1 on the line from `(0, 0)` to `(2, 1)`. -/
theorem drawLineBresenham32_endpoints_witness :
    LineInRange 0 0 2 1 ∧ max |(2 : Int) - 0| |(1 : Int) - 0| < ((3 : Nat) : Int) ∧
      ∃ l, drawLineBresenham32 3 0 0 2 1 = some l ∧ l ≠ [] ∧
        l.head? = some ⟨0, 0⟩ ∧ l.getLast? = some ⟨2, 1⟩ := by
  refine ⟨by unfold LineInRange InInt32; decide, by decide, ?_⟩
  obtain ⟨l, hl⟩ := (drawLineBresenham32_endpoints 0 0 2 1 3).2
    (by unfold LineInRange InInt32; decide) (by decide)
  exact ⟨l, hl, (drawLineBresenham32_endpoints 0 0 2 1 3).1 l hl⟩

/-- Counterexample to C2 as stated: from `(0, 0)` to `(2^30, 0)` the first `2 * err` is
`2^31`, which is not a C `int`; no budget yields an 8-connected pixel sequence. -/
theorem drawLineBresenham32_connected_overflow :
    ¬ ∃ (fuel : Nat) (l : List Point),
      drawLineBresenham32 fuel 0 0 1073741824 0 = some l ∧
        List.Chain' Adjacent8 l := by
  have key : ∀ fuel, drawLineBresenham32 fuel 0 0 1073741824 0 = none := by
    intro fuel; cases fuel <;> rfl
  rintro ⟨fuel, l, h, -⟩
  rw [key] at h
  exact Option.noConfusion h

/-- Claim C2 as amended: whenever no `int` operation of `drawLineBresenham` overflows, every
two consecutive plotted pixels differ by at most one in x and by at most one in y; and no
operation overflows, and the loop exits within the budget, for `int` endpoints with
`3 * max |x1 - x0| |y1 - y0| ≤ 2^31 - 1` and a budget of more than
`max |x1 - x0| |y1 - y0|` loop iterations. -/
theorem drawLineBresenham32_connected (x0 y0 x1 y1 : Int) (fuel : Nat) :
    (∀ l, drawLineBresenham32 fuel x0 y0 x1 y1 = some l → List.Chain' Adjacent8 l) ∧
    (LineInRange x0 y0 x1 y1 → max |x1 - x0| |y1 - y0| < (fuel : Int) →
      ∃ l, drawLineBresenham32 fuel x0 y0 x1 y1 = some l) := by
  refine ⟨?_, fun hr hfuel => ⟨_, drawLineBresenham32_run x0 y0 x1 y1 fuel hr hfuel⟩⟩
  intro l h
  rw [drawLineBresenham32_closed x0 y0 x1 y1 fuel l h]
  exact linePoints_adjacent x0 y0 x1 y1

/-- Witness for the amended C2 on the steep line from `(1, -2)` to `(0, 3)`. -/
theorem drawLineBresenham32_connected_witness :
    LineInRange 1 (-2) 0 3 ∧ max |(0 : Int) - 1| |(3 : Int) - (-2)| < ((6 : Nat) : Int) ∧
      ∃ l, drawLineBresenham32 6 1 (-2) 0 3 = some l ∧ List.Chain' Adjacent8 l := by
  refine ⟨by unfold LineInRange InInt32; decide, by decide, ?_⟩
  obtain ⟨l, hl⟩ := (drawLineBresenham32_connected 1 (-2) 0 3 6).2
    (by unfold LineInRange InInt32; decide) (by decide)
  exact ⟨l, hl, (drawLineBresenham32_connected 1 (-2) 0 3 6).1 l hl⟩

/-- Counterexample to C3 as stated.  Within range: the line from `(0, 0)` to `(2, 1)` plots
`(1, 1)`, the reversed line from `(2, 1)` to `(0, 0)` plots `(1, 0)` instead, so the two
pixel sets differ.  Out of range: from `(2^30, 0)` to `(0, 0)` the first `2 * err` is
`2^31`, which is not a C `int`, and no budget yields a pixel sequence. -/
theorem drawLineBresenham_symmetry_fails :
    drawLineBresenham32 3 0 0 2 1 = some [⟨0, 0⟩, ⟨1, 1⟩, ⟨2, 1⟩] ∧
    drawLineBresenham32 3 2 1 0 0 = some [⟨2, 1⟩, ⟨1, 0⟩, ⟨0, 0⟩] ∧
    ¬ (∀ p : Point, p ∈ [(⟨0, 0⟩ : Point), ⟨1, 1⟩, ⟨2, 1⟩] ↔
        p ∈ [(⟨2, 1⟩ : Point), ⟨1, 0⟩, ⟨0, 0⟩]) ∧
    ¬ ∃ (fuel : Nat) (l : List Point),
      drawLineBresenham32 fuel 1073741824 0 0 0 = some l := by
  refine ⟨by decide, by decide, ?_, ?_⟩
  · intro h
    have := (h ⟨1, 1⟩).1 (by decide)
    revert this
    decide
  · have key : ∀ fuel, drawLineBresenham32 fuel 1073741824 0 0 0 = none := by
      intro fuel; cases fuel <;> rfl
    rintro ⟨fuel, l, h⟩
    rw [key] at h
    exact Option.noConfusion h

/-- Claim C3 as amended: whenever no `int` operation overflows in either direction, the
pixel sequence plotted from `p1` to `p0` is, pixel by pixel, the point reflection
`(x, y) ↦ (x0 + x1 - x, y0 + y1 - y)` of the sequence plotted from `p0` to `p1`, and when
the line meets no rounding tie the two runs plot the identical set of pixels; and no
operation overflows, and both loops exit within the budget, for `int` endpoints with
`3 * max |x1 - x0| |y1 - y0| ≤ 2^31 - 1` and a budget of more than
`max |x1 - x0| |y1 - y0|` loop iterations. -/
theorem drawLineBresenham32_reverse (x0 y0 x1 y1 : Int) (fuel : Nat) :
    (∀ l l', drawLineBresenham32 fuel x0 y0 x1 y1 = some l →
      drawLineBresenham32 fuel x1 y1 x0 y0 = some l' →
      l' = l.map (Point.reflectIn x0 y0 x1 y1) ∧
      (lineTieFree |x1 - x0| |y1 - y0| → ∀ p, p ∈ l ↔ p ∈ l')) ∧
    (LineInRange x0 y0 x1 y1 → max |x1 - x0| |y1 - y0| < (fuel : Int) →
      ∃ l l', drawLineBresenham32 fuel x0 y0 x1 y1 = some l ∧
        drawLineBresenham32 fuel x1 y1 x0 y0 = some l') := by
  constructor
  · intro l l' h h'
    rw [drawLineBresenham32_closed x0 y0 x1 y1 fuel l h,
      drawLineBresenham32_closed x1 y1 x0 y0 fuel l' h']
    exact ⟨linePoints_reverse x0 y0 x1 y1, fun tf p => linePoints_reverse_mem x0 y0 x1 y1 tf p⟩
  · intro hr hfuel
    refine ⟨_, _, drawLineBresenham32_run x0 y0 x1 y1 fuel hr hfuel,
      drawLineBresenham32_run x1 y1 x0 y0 fuel hr.symm ?_⟩
    rw [abs_sub_comm x0 x1, abs_sub_comm y0 y1]
    exact hfuel

/-- Witness for the amended C3 on the tie-free line from `(0, 0)` to `(3, 1)`. -/
theorem drawLineBresenham32_reverse_witness :
    LineInRange 0 0 3 1 ∧ max |(3 : Int) - 0| |(1 : Int) - 0| < ((4 : Nat) : Int) ∧
      lineTieFree |(3 : Int) - 0| |(1 : Int) - 0| ∧
      ∃ l l', drawLineBresenham32 4 0 0 3 1 = some l ∧
        drawLineBresenham32 4 3 1 0 0 = some l' ∧
        l' = l.map (Point.reflectIn 0 0 3 1) ∧ ∀ p, p ∈ l ↔ p ∈ l' := by
  have tf : lineTieFree |(3 : Int) - 0| |(1 : Int) - 0| := by unfold lineTieFree; decide
  refine ⟨by unfold LineInRange InInt32; decide, by decide, tf, ?_⟩
  obtain ⟨l, l', hl, hl'⟩ := (drawLineBresenham32_reverse 0 0 3 1 4).2
    (by unfold LineInRange InInt32; decide) (by decide)
  obtain ⟨e, hm⟩ := (drawLineBresenham32_reverse 0 0 3 1 4).1 l l' hl hl'
  exact ⟨l, l', hl, hl', e, hm tf⟩

/-- Counterexample to C4 as stated: from `(0, 0)` to `(2^30, 0)` the first `2 * err` is
`2^31`, which is not a C `int`; no budget, in particular not `max + 1 = 2^30 + 1`, yields a
run that ends at the target. -/
theorem drawLineBresenham32_terminates_overflow :
    ¬ ∃ (fuel : Nat) (l : List Point),
      drawLineBresenham32 fuel 0 0 1073741824 0 = some l ∧
        l.getLast? = some ⟨1073741824, 0⟩ ∧ (l.length : Int) ≤ 1073741824 + 1 := by
  have key : ∀ fuel, drawLineBresenham32 fuel 0 0 1073741824 0 = none := by
    intro fuel; cases fuel <;> rfl
  rintro ⟨fuel, l, h, -⟩
  rw [key] at h
  exact Option.noConfusion h

/-- Claim C4 as amended: whenever no `int` operation of `drawLineBresenham` overflows, the run
starts at `(x0, y0)` and ends at `(x1, y1)`, every iteration moves x or y (or both) by
exactly one unit toward the target, and `plot` is called at most
`max |x1 - x0| |y1 - y0| + 1` times; no operation overflows and the loop exits within
`max |x1 - x0| |y1 - y0| + 1` iterations for `int` endpoints with
`3 * max |x1 - x0| |y1 - y0| ≤ 2^31 - 1`; and a line from an `int` point to itself plots
exactly that one pixel. -/
theorem drawLineBresenham32_terminates (x0 y0 x1 y1 : Int) (fuel : Nat) :
    (∀ l, drawLineBresenham32 fuel x0 y0 x1 y1 = some l →
      l.head? = some ⟨x0, y0⟩ ∧ l.getLast? = some ⟨x1, y1⟩ ∧
      List.Chain' (StepsToward x1 y1) l ∧
      (l.length : Int) ≤ max |x1 - x0| |y1 - y0| + 1) ∧
    (LineInRange x0 y0 x1 y1 → max |x1 - x0| |y1 - y0| < (fuel : Int) →
      ∃ l, drawLineBresenham32 fuel x0 y0 x1 y1 = some l) ∧
    (InInt32 x0 → InInt32 y0 → 0 < fuel →
      drawLineBresenham32 fuel x0 y0 x0 y0 = some [⟨x0, y0⟩]) := by
  refine ⟨?_, fun hr hfuel => ⟨_, drawLineBresenham32_run x0 y0 x1 y1 fuel hr hfuel⟩,
    fun hx hy hf => drawLineBresenham32_self x0 y0 fuel hx hy hf⟩
  intro l h
  rw [drawLineBresenham32_closed x0 y0 x1 y1 fuel l h]
  exact ⟨linePoints_head x0 y0 x1 y1, linePoints_getLast x0 y0 x1 y1,
    linePoints_stepsToward x0 y0 x1 y1, le_of_eq (linePoints_length x0 y0 x1 y1)⟩

/-- Witness for the amended C4 on the line from `(3, 4)` to `(-1, 2)`. -/
theorem drawLineBresenham32_terminates_witness :
    LineInRange 3 4 (-1) 2 ∧ max |(-1 : Int) - 3| |(2 : Int) - 4| < ((5 : Nat) : Int) ∧
      InInt32 3 ∧ InInt32 4 ∧
      ∃ l, drawLineBresenham32 5 3 4 (-1) 2 = some l ∧
        l.head? = some ⟨3, 4⟩ ∧ l.getLast? = some ⟨-1, 2⟩ ∧
        List.Chain' (StepsToward (-1) 2) l ∧
        (l.length : Int) ≤ max |(-1 : Int) - 3| |(2 : Int) - 4| + 1 ∧
        drawLineBresenham32 5 3 4 3 4 = some [⟨3, 4⟩] := by
  refine ⟨by unfold LineInRange InInt32; decide, by decide, by unfold InInt32; decide,
    by unfold InInt32; decide, ?_⟩
  obtain ⟨l, hl⟩ := (drawLineBresenham32_terminates 3 4 (-1) 2 5).2.1
    (by unfold LineInRange InInt32; decide) (by decide)
  obtain ⟨a, b, c, d⟩ := (drawLineBresenham32_terminates 3 4 (-1) 2 5).1 l hl
  exact ⟨l, hl, a, b, c, d, (drawLineBresenham32_terminates 3 4 (-1) 2 5).2.2
    (by unfold InInt32; decide) (by unfold InInt32; decide) (by decide)⟩

/-- Counterexample to C5 as stated: from `(0, 0)` to `(2^30, 0)` the first `2 * err` is
`2^31`, which is not a C `int`; no budget yields a duplicate-free pixel sequence. -/
theorem drawLineBresenham32_nodup_overflow :
    ¬ ∃ (fuel : Nat) (l : List Point),
      drawLineBresenham32 fuel 0 0 1073741824 0 = some l ∧ l.Nodup := by
  have key : ∀ fuel, drawLineBresenham32 fuel 0 0 1073741824 0 = none := by
    intro fuel; cases fuel <;> rfl
  rintro ⟨fuel, l, h, -⟩
  rw [key] at h
  exact Option.noConfusion h

/-- Claim C5 as amended: whenever no `int` operation of `drawLineBresenham` overflows, `plot`
is called once per pixel: no coordinate pair occurs twice in the plotted sequence; and no
operation overflows, and the loop exits within the budget, for `int` endpoints with
`3 * max |x1 - x0| |y1 - y0| ≤ 2^31 - 1` and a budget of more than
`max |x1 - x0| |y1 - y0|` loop iterations. -/
theorem drawLineBresenham32_nodup (x0 y0 x1 y1 : Int) (fuel : Nat) :
    (∀ l, drawLineBresenham32 fuel x0 y0 x1 y1 = some l → l.Nodup) ∧
    (LineInRange x0 y0 x1 y1 → max |x1 - x0| |y1 - y0| < (fuel : Int) →
      ∃ l, drawLineBresenham32 fuel x0 y0 x1 y1 = some l) := by
  refine ⟨?_, fun hr hfuel => ⟨_, drawLineBresenham32_run x0 y0 x1 y1 fuel hr hfuel⟩⟩
  intro l h
  rw [drawLineBresenham32_closed x0 y0 x1 y1 fuel l h]
  exact linePoints_nodup x0 y0 x1 y1

/-- Witness for the amended C5 on the diagonal line from `(0, 0)` to `(-2, 2)`. -/
theorem drawLineBresenham32_nodup_witness :
    LineInRange 0 0 (-2) 2 ∧ max |(-2 : Int) - 0| |(2 : Int) - 0| < ((3 : Nat) : Int) ∧
      ∃ l, drawLineBresenham32 3 0 0 (-2) 2 = some l ∧ l.Nodup := by
  refine ⟨by unfold LineInRange InInt32; decide, by decide, ?_⟩
  obtain ⟨l, hl⟩ := (drawLineBresenham32_nodup 0 0 (-2) 2 3).2
    (by unfold LineInRange InInt32; decide) (by decide)
  exact ⟨l, hl, (drawLineBresenham32_nodup 0 0 (-2) 2 3).1 l hl⟩

/-- Counterexample to C6 as stated: for centre `(2^31 - 1, 0)` and radius 1 the first
symmetric step has to plot at `xc + y = 2^31`, which is not a C `int`; no budget yields a
pixel sequence whose points are all within one of the radius. -/
theorem drawCircleMidpoint32_radius_overflow :
    ¬ ∃ (fuel : Nat) (l : List Point),
      drawCircleMidpoint32 fuel 2147483647 0 1 = some l ∧
        ∀ q ∈ l, 4 * ((q.x - 2147483647) ^ 2 + (q.y - 0) ^ 2) < (2 * 1 + 3) ^ 2 := by
  have key : ∀ fuel, drawCircleMidpoint32 fuel 2147483647 0 1 = none := by
    intro fuel; rfl
  rintro ⟨fuel, l, h, -⟩
  rw [key] at h
  exact Option.noConfusion h

/-- Claim C6 as amended: for every centre and radius `r ≥ 0`, whenever no `int` operation of
`drawCircleMidpoint` overflows, every plotted pixel has squared distance `d2` from the
centre with `4 * d2 < (2 r + 3) ^ 2` and, when `r ≥ 2`, `(2 r - 3) ^ 2 ≤ 4 * d2`; equivalently
its Euclidean distance from the centre, rounded to the nearest integer, differs from `r` by
at most one.  No operation overflows, and the run returns within `r` loop iterations, when
`xc ± r` and `yc ± r` are C `int` values and `4 * r ≤ 2^31 - 1`. -/
theorem drawCircleMidpoint32_radius (xc yc r : Int) (fuel : Nat) (hr : 0 ≤ r) :
    (∀ l, drawCircleMidpoint32 fuel xc yc r = some l →
      ∀ q ∈ l,
        4 * ((q.x - xc) ^ 2 + (q.y - yc) ^ 2) < (2 * r + 3) ^ 2 ∧
        (2 ≤ r → (2 * r - 3) ^ 2 ≤ 4 * ((q.x - xc) ^ 2 + (q.y - yc) ^ 2)) ∧
        |round (Real.sqrt (((q.x - xc) ^ 2 + (q.y - yc) ^ 2 : Int) : ℝ)) - r| ≤ 1) ∧
    (CircleInRange xc yc r → r ≤ (fuel : Int) →
      ∃ l, drawCircleMidpoint32 fuel xc yc r = some l) := by
  constructor
  · intro l h q hqm
    obtain ⟨u, v, hm, -, lo, hi⟩ := drawCircleMidpoint32_spec xc yc r fuel hr l h q hqm
    rw [plotSymmetric_mem_dist xc yc u v q hm]
    refine ⟨by nlinarith, fun h2 => by nlinarith,
      round_sqrt_near _ r hr (by omega) (by omega)⟩
  · intro hc hfuel
    obtain ⟨l, hl, -⟩ := drawCircleMidpoint_spec xc yc r fuel hr hfuel
    exact ⟨l, by rw [drawCircleMidpoint32_of_range xc yc r fuel hc]; exact hl⟩

/-- Witness for the amended C6 on the circle of radius 2 about `(1, -1)`. -/
theorem drawCircleMidpoint32_radius_witness :
    (0 : Int) ≤ 2 ∧ CircleInRange 1 (-1) 2 ∧ (2 : Int) ≤ ((2 : Nat) : Int) ∧
      ∃ l, drawCircleMidpoint32 2 1 (-1) 2 = some l ∧
        ∀ q ∈ l,
          4 * ((q.x - 1) ^ 2 + (q.y - (-1)) ^ 2) < (2 * 2 + 3) ^ 2 ∧
          ((2 : Int) ≤ 2 → (2 * 2 - 3) ^ 2 ≤ 4 * ((q.x - 1) ^ 2 + (q.y - (-1)) ^ 2)) ∧
          |round (Real.sqrt (((q.x - 1) ^ 2 + (q.y - (-1)) ^ 2 : Int) : ℝ)) - 2| ≤ 1 := by
  refine ⟨by decide, by unfold CircleInRange InInt32; decide, by decide, ?_⟩
  obtain ⟨l, hl⟩ := (drawCircleMidpoint32_radius 1 (-1) 2 2 (by decide)).2
    (by unfold CircleInRange InInt32; decide) (by decide)
  exact ⟨l, hl, (drawCircleMidpoint32_radius 1 (-1) 2 2 (by decide)).1 l hl⟩

/-- Counterexample to C7 as stated: for centre `(2^31 - 1, 0)` and radius 1 the first
symmetric step has to plot at `xc + y = 2^31`, which is not a C `int`; no budget yields a
pixel set closed under the reflection `(xc + a, yc + b) ↦ (xc - a, yc + b)`. -/
theorem drawCircleMidpoint32_symmetric_overflow :
    ¬ ∃ (fuel : Nat) (l : List Point),
      drawCircleMidpoint32 fuel 2147483647 0 1 = some l ∧
        ∀ a b : Int, (⟨2147483647 + a, 0 + b⟩ : Point) ∈ l →
          (⟨2147483647 - a, 0 + b⟩ : Point) ∈ l := by
  have key : ∀ fuel, drawCircleMidpoint32 fuel 2147483647 0 1 = none := by
    intro fuel; rfl
  rintro ⟨fuel, l, h, -⟩
  rw [key] at h
  exact Option.noConfusion h

/-- Claim C7 as amended: for every centre and radius `r ≥ 0`, whenever no `int` operation of
`drawCircleMidpoint` overflows, the set of plotted pixels is closed under the eight
reflections about the centre: if `(xc + a, yc + b)` is plotted then so are `(xc ± a, yc ± b)`
and `(xc ± b, yc ± a)`.  No operation overflows, and the run returns within `r` loop
iterations, when `xc ± r` and `yc ± r` are C `int` values and `4 * r ≤ 2^31 - 1`. -/
theorem drawCircleMidpoint32_symmetric (xc yc r : Int) (fuel : Nat) (hr : 0 ≤ r) :
    (∀ l, drawCircleMidpoint32 fuel xc yc r = some l →
      ∀ a b : Int, (⟨xc + a, yc + b⟩ : Point) ∈ l →
        (⟨xc + a, yc + b⟩ : Point) ∈ l ∧ (⟨xc - a, yc + b⟩ : Point) ∈ l ∧
        (⟨xc + a, yc - b⟩ : Point) ∈ l ∧ (⟨xc - a, yc - b⟩ : Point) ∈ l ∧
        (⟨xc + b, yc + a⟩ : Point) ∈ l ∧ (⟨xc - b, yc + a⟩ : Point) ∈ l ∧
        (⟨xc + b, yc - a⟩ : Point) ∈ l ∧ (⟨xc - b, yc - a⟩ : Point) ∈ l) ∧
    (CircleInRange xc yc r → r ≤ (fuel : Int) →
      ∃ l, drawCircleMidpoint32 fuel xc yc r = some l) := by
  constructor
  · intro l h a b hab
    obtain ⟨u, v, hm, hall, -, -⟩ := drawCircleMidpoint32_spec xc yc r fuel hr l h _ hab
    rw [plotSymmetric_mem_iff] at hm
    have e1 : xc - a = xc + -a := by ring
    have e2 : yc - b = yc + -b := by ring
    have e3 : xc - b = xc + -b := by ring
    have e4 : yc - a = yc + -a := by ring
    rw [e1, e2, e3, e4]
    refine ⟨hab, ?_, ?_, ?_, ?_, ?_, ?_, ?_⟩ <;>
      (apply hall; rw [plotSymmetric_mem_iff]; omega)
  · intro hc hfuel
    obtain ⟨l, hl, -⟩ := drawCircleMidpoint_spec xc yc r fuel hr hfuel
    exact ⟨l, by rw [drawCircleMidpoint32_of_range xc yc r fuel hc]; exact hl⟩

/-- Witness for the amended C7 on the circle of radius 3 about `(-3, -3)`. -/
theorem drawCircleMidpoint32_symmetric_witness :
    (0 : Int) ≤ 3 ∧ CircleInRange (-3) (-3) 3 ∧ (3 : Int) ≤ ((3 : Nat) : Int) ∧
      ∃ l, drawCircleMidpoint32 3 (-3) (-3) 3 = some l ∧
        ∀ a b : Int, (⟨-3 + a, -3 + b⟩ : Point) ∈ l →
          (⟨-3 + a, -3 + b⟩ : Point) ∈ l ∧ (⟨-3 - a, -3 + b⟩ : Point) ∈ l ∧
          (⟨-3 + a, -3 - b⟩ : Point) ∈ l ∧ (⟨-3 - a, -3 - b⟩ : Point) ∈ l ∧
          (⟨-3 + b, -3 + a⟩ : Point) ∈ l ∧ (⟨-3 - b, -3 + a⟩ : Point) ∈ l ∧
          (⟨-3 + b, -3 - a⟩ : Point) ∈ l ∧ (⟨-3 - b, -3 - a⟩ : Point) ∈ l := by
  refine ⟨by decide, by unfold CircleInRange InInt32; decide, by decide, ?_⟩
  obtain ⟨l, hl⟩ := (drawCircleMidpoint32_symmetric (-3) (-3) 3 3 (by decide)).2
    (by unfold CircleInRange InInt32; decide) (by decide)
  exact ⟨l, hl, (drawCircleMidpoint32_symmetric (-3) (-3) 3 3 (by decide)).1 l hl⟩

/-- Claim C8: with radius 0 the loop body never runs, whatever the budget, and
`drawCircleMidpoint` makes exactly the eight `plot` calls of one symmetric step, every one
of them at the centre `(xc, yc)`. -/
theorem drawCircleMidpoint_zero (xc yc : Int) (fuel : Nat) :
    drawCircleMidpoint fuel xc yc 0 = some (List.replicate 8 ⟨xc, yc⟩) := by
  cases fuel <;> simp [drawCircleMidpoint, circleLoop, plotSymmetric, List.replicate]

/-- Counterexample to C9 as stated: `translate((2^31 - 1, 0), 1, 0)` has to compute
`2^31 - 1 + 1`, which is not a C `int`; the call does not return `(p.x + dx, p.y + dy)`. -/
theorem translate_overflow :
    translate ⟨2147483647, 0⟩ 1 0 = none ∧
    translate ⟨2147483647, 0⟩ 1 0 ≠ some ⟨2147483647 + 1, 0 + 0⟩ := by
  decide

/-- Claim C9 as amended: for every `int` Point `p` and offsets `dx`, `dy` such that `p.x + dx`
and `p.y + dy` are again C `int` values, `translate p dx dy` is `(p.x + dx, p.y + dy)`, and
translating the result by `(-dx, -dy)` returns `p` exactly. -/
theorem translate_roundtrip (p : Point) (dx dy : Int)
    (hpx : InInt32 p.x) (hpy : InInt32 p.y)
    (hx : InInt32 (p.x + dx)) (hy : InInt32 (p.y + dy)) :
    translate p dx dy = some ⟨p.x + dx, p.y + dy⟩ ∧
      (translate p dx dy).bind (fun q => translate q (-dx) (-dy)) = some p := by
  have e : translate p dx dy = some ⟨p.x + dx, p.y + dy⟩ := by
    simp [translate, int32_of_mem _ hx, int32_of_mem _ hy]
  refine ⟨e, ?_⟩
  rw [e]
  have e1 : p.x + dx + -dx = p.x := by ring
  have e2 : p.y + dy + -dy = p.y := by ring
  cases p
  simp only [Option.some_bind, translate, e1, e2] at *
  simp [int32_of_mem _ hpx, int32_of_mem _ hpy]

/-- Witness for the amended C9 at the edge of the range: `(2^31 - 2, -5)` moved by
`(1, 3)`. -/
theorem translate_roundtrip_witness :
    InInt32 2147483646 ∧ InInt32 (-5) ∧ InInt32 (2147483646 + 1) ∧ InInt32 (-5 + 3) ∧
    translate ⟨2147483646, -5⟩ 1 3 = some ⟨2147483646 + 1, -5 + 3⟩ ∧
      (translate ⟨2147483646, -5⟩ 1 3).bind (fun q => translate q (-1) (-3))
        = some ⟨2147483646, -5⟩ :=
  ⟨by unfold InInt32; decide, by unfold InInt32; decide, by unfold InInt32; decide,
    by unfold InInt32; decide,
    translate_roundtrip ⟨2147483646, -5⟩ 1 3 (by unfold InInt32; decide)
      (by unfold InInt32; decide) (by unfold InInt32; decide) (by unfold InInt32; decide)⟩

/-- Counterexample to C10 as stated: `reflectY((-2^31, 3))` has to compute `-(-2^31)`, which
is not a C `int`; the call does not return `(-p.x, p.y)`. -/
theorem reflectY_overflow :
    reflectY ⟨-2147483648, 3⟩ = none ∧
    reflectY ⟨-2147483648, 3⟩ ≠ some ⟨-(-2147483648), 3⟩ := by
  decide

/-- Claim C10 as amended: for every `int` Point `p` with `p.x ≠ -2^31` (so that `-p.x` is a
C `int`), `reflectY p` is `(-p.x, p.y)`, and reflecting twice returns `p` exactly. -/
theorem reflectY_involution (p : Point) (hpx : InInt32 p.x) (hnx : InInt32 (-p.x)) :
    reflectY p = some ⟨-p.x, p.y⟩ ∧ (reflectY p).bind reflectY = some p := by
  have e : reflectY p = some ⟨-p.x, p.y⟩ := by
    simp [reflectY, int32_of_mem _ hnx]
  refine ⟨e, ?_⟩
  rw [e]
  cases p
  simp only [Option.some_bind, reflectY, neg_neg] at *
  simp [int32_of_mem _ hpx]

/-- Witness for the amended C10 at the edge of the range: `(2^31 - 1, 3)`. -/
theorem reflectY_involution_witness :
    InInt32 2147483647 ∧ InInt32 (-2147483647) ∧
    reflectY ⟨2147483647, 3⟩ = some ⟨-2147483647, 3⟩ ∧
      (reflectY ⟨2147483647, 3⟩).bind reflectY = some ⟨2147483647, 3⟩ :=
  ⟨by unfold InInt32; decide, by unfold InInt32; decide,
    reflectY_involution ⟨2147483647, 3⟩ (by unfold InInt32; decide)
      (by unfold InInt32; decide)⟩

/-- Counterexample to C12 as stated: for `p1 = (0, 0)`, `p2 = (2^30, 0)`, `p3 = (0, 1)` the
first line overflows in `2 * err`, so no budget yields the three concatenated lines. -/
theorem drawTriangle_overflow :
    ¬ ∃ (fuel : Nat) (l : List Point),
      drawTriangle fuel ⟨0, 0⟩ ⟨1073741824, 0⟩ ⟨0, 1⟩ = some l := by
  have key : ∀ fuel, drawLineBresenham32 fuel 0 0 1073741824 0 = none := by
    intro fuel; cases fuel <;> rfl
  rintro ⟨fuel, l, h⟩
  simp only [drawTriangle, key, Option.none_bind] at h
  exact Option.noConfusion h

/-- Claim C12 as amended: whenever no `int` operation overflows, the pixel sequence of
`drawTriangle p1 p2 p3` is the sequence of the line `p1 → p2`, followed by that of
`p2 → p3`, followed by that of `p3 → p1`; no input is rejected and no operation overflows
when each of the three segments is within the overflow-free range of `drawLineBresenham`;
and three coincident `int` points give exactly three plot calls at that point. -/
theorem drawTriangle_three_lines (p1 p2 p3 : Point) (fuel : Nat) :
    (∀ l, drawTriangle fuel p1 p2 p3 = some l →
      ∃ l1 l2 l3, drawLineBresenham32 fuel p1.x p1.y p2.x p2.y = some l1 ∧
        drawLineBresenham32 fuel p2.x p2.y p3.x p3.y = some l2 ∧
        drawLineBresenham32 fuel p3.x p3.y p1.x p1.y = some l3 ∧
        l = l1 ++ l2 ++ l3) ∧
    (LineInRange p1.x p1.y p2.x p2.y → LineInRange p2.x p2.y p3.x p3.y →
      LineInRange p3.x p3.y p1.x p1.y →
      max |p2.x - p1.x| |p2.y - p1.y| < (fuel : Int) →
      max |p3.x - p2.x| |p3.y - p2.y| < (fuel : Int) →
      max |p1.x - p3.x| |p1.y - p3.y| < (fuel : Int) →
      ∃ l, drawTriangle fuel p1 p2 p3 = some l) ∧
    (InInt32 p1.x → InInt32 p1.y → 0 < fuel →
      drawTriangle fuel p1 p1 p1 = some [p1, p1, p1]) := by
  refine ⟨?_, ?_, ?_⟩
  · intro l h
    simp only [drawTriangle, Option.bind_eq_some, Option.map_eq_some'] at h
    obtain ⟨l1, h1, l2, h2, l3, h3, rfl⟩ := h
    exact ⟨l1, l2, l3, h1, h2, h3, by simp⟩
  · intro r12 r23 r31 h12 h23 h31
    have e1 := drawLineBresenham32_run p1.x p1.y p2.x p2.y fuel r12 h12
    have e2 := drawLineBresenham32_run p2.x p2.y p3.x p3.y fuel r23 h23
    have e3 := drawLineBresenham32_run p3.x p3.y p1.x p1.y fuel r31 h31
    exact ⟨linePoints p1.x p1.y p2.x p2.y ++ linePoints p2.x p2.y p3.x p3.y ++
      linePoints p3.x p3.y p1.x p1.y, by simp [drawTriangle, e1, e2, e3]⟩
  · intro hx hy hf
    have e := drawLineBresenham32_self p1.x p1.y fuel hx hy hf
    simp [drawTriangle, e]

/-- Witness for the amended C12 on the triangle `A(0,0)`, `B(1,1)`, `C(5,2)` of `main`. -/
theorem drawTriangle_three_lines_witness :
    LineInRange 0 0 1 1 ∧ LineInRange 1 1 5 2 ∧ LineInRange 5 2 0 0 ∧
    max |(1 : Int) - 0| |(1 : Int) - 0| < ((6 : Nat) : Int) ∧
    max |(5 : Int) - 1| |(2 : Int) - 1| < ((6 : Nat) : Int) ∧
    max |(0 : Int) - 5| |(0 : Int) - 2| < ((6 : Nat) : Int) ∧
    ∃ l l1 l2 l3, drawTriangle 6 ⟨0, 0⟩ ⟨1, 1⟩ ⟨5, 2⟩ = some l ∧
      drawLineBresenham32 6 0 0 1 1 = some l1 ∧
      drawLineBresenham32 6 1 1 5 2 = some l2 ∧
      drawLineBresenham32 6 5 2 0 0 = some l3 ∧
      l = l1 ++ l2 ++ l3 ∧
      drawTriangle 6 ⟨0, 0⟩ ⟨0, 0⟩ ⟨0, 0⟩ = some [⟨0, 0⟩, ⟨0, 0⟩, ⟨0, 0⟩] := by
  refine ⟨by unfold LineInRange InInt32; decide, by unfold LineInRange InInt32; decide,
    by unfold LineInRange InInt32; decide, by decide, by decide, by decide, ?_⟩
  obtain ⟨l, hl⟩ := (drawTriangle_three_lines ⟨0, 0⟩ ⟨1, 1⟩ ⟨5, 2⟩ 6).2.1
    (by unfold LineInRange InInt32; decide) (by unfold LineInRange InInt32; decide)
    (by unfold LineInRange InInt32; decide) (by decide) (by decide) (by decide)
  obtain ⟨l1, l2, l3, h1, h2, h3, e⟩ :=
    (drawTriangle_three_lines ⟨0, 0⟩ ⟨1, 1⟩ ⟨5, 2⟩ 6).1 l hl
  exact ⟨l, l1, l2, l3, hl, h1, h2, h3, e,
    (drawTriangle_three_lines ⟨0, 0⟩ ⟨1, 1⟩ ⟨5, 2⟩ 6).2.2 (by unfold InInt32; decide)
      (by unfold InInt32; decide) (by decide)⟩

/-- Claim C13: the line from `(10, 12)` to `(26, 22)` plots exactly 17 pixels, the first is
`(10, 12)`, the last is `(26, 22)`, the x coordinates are `10, 11, ..., 26` in order (x steps
in every iteration) and y steps in only ten of the sixteen iterations. -/
theorem drawLineBresenham_scenario (fuel : Nat) (hfuel : 17 ≤ fuel) :
    ∃ l, drawLineBresenham fuel 10 12 26 22 = some l ∧ l.length = 17 ∧
      l.head? = some ⟨10, 12⟩ ∧ l.getLast? = some ⟨26, 22⟩ ∧
      l.map Point.x = [10, 11, 12, 13, 14, 15, 16, 17, 18, 19, 20, 21, 22, 23, 24, 25, 26] ∧
      l.map Point.y = [12, 13, 13, 14, 15, 15, 16, 16, 17, 18, 18, 19, 20, 20, 21, 21, 22] := by
  refine ⟨_, drawLineBresenham_eq 10 12 26 22 fuel ?_, ?_⟩
  · have : max |(26 : Int) - 10| |(22 : Int) - 12| = 16 := by decide
    rw [this]; omega
  · rw [linePoints_scenario]
    decide

/-- Witness for C13 with a budget of exactly 17 iterations. -/
theorem drawLineBresenham_scenario_witness :
    17 ≤ 17 ∧
    ∃ l, drawLineBresenham 17 10 12 26 22 = some l ∧ l.length = 17 ∧
      l.head? = some ⟨10, 12⟩ ∧ l.getLast? = some ⟨26, 22⟩ ∧
      l.map Point.x = [10, 11, 12, 13, 14, 15, 16, 17, 18, 19, 20, 21, 22, 23, 24, 25, 26] ∧
      l.map Point.y = [12, 13, 13, 14, 15, 15, 16, 16, 17, 18, 18, 19, 20, 20, 21, 21, 22] :=
  ⟨by decide, drawLineBresenham_scenario 17 (by decide)⟩

/-- Claim C14: the circle with centre `(-3, -3)` and radius 8 plots `(5, -3)` and `(-3, 5)`,
and every plotted pixel `(x, y)` satisfies `49 ≤ (x + 3) ^ 2 + (y + 3) ^ 2 ≤ 81`. -/
theorem drawCircleMidpoint_scenario (fuel : Nat) (hfuel : 8 ≤ fuel) :
    ∃ l, drawCircleMidpoint fuel (-3) (-3) 8 = some l ∧
      (⟨5, -3⟩ : Point) ∈ l ∧ (⟨-3, 5⟩ : Point) ∈ l ∧
      ∀ q ∈ l, 49 ≤ (q.x + 3) ^ 2 + (q.y + 3) ^ 2 ∧ (q.x + 3) ^ 2 + (q.y + 3) ^ 2 ≤ 81 := by
  obtain ⟨l, hl, hq⟩ := drawCircleMidpoint_spec (-3) (-3) 8 fuel (by decide) (by omega)
  obtain ⟨t, -, rfl⟩ := drawCircleMidpoint_prefix _ _ _ _ _ hl
  refine ⟨_, hl, ?_, ?_, ?_⟩
  · exact List.mem_append_left _ (by decide)
  · exact List.mem_append_left _ (by decide)
  · intro q hqm
    obtain ⟨u, v, hm, -, lo, hi⟩ := hq q hqm
    have e := plotSymmetric_mem_dist (-3) (-3) u v q hm
    simp only [sub_neg_eq_add] at e
    omega

/-- Witness for C14 with a budget of eight loop iterations. -/
theorem drawCircleMidpoint_scenario_witness :
    8 ≤ 8 ∧
    ∃ l, drawCircleMidpoint 8 (-3) (-3) 8 = some l ∧
      (⟨5, -3⟩ : Point) ∈ l ∧ (⟨-3, 5⟩ : Point) ∈ l ∧
      ∀ q ∈ l, 49 ≤ (q.x + 3) ^ 2 + (q.y + 3) ^ 2 ∧ (q.x + 3) ^ 2 + (q.y + 3) ^ 2 ≤ 81 :=
  ⟨by decide, drawCircleMidpoint_scenario 8 (by decide)⟩

/-- Counterexample to C16 as stated.  Within range: for centre `(0, 10)` and octant pair
`(1, 2)` the stated second group `(cx ± y, cx ± x)` contains `(2, 1)`, which `plotSymmetric`
does not plot; it plots `(2, 11)`, whose second coordinate is taken about `cy`.  Out of
range: for centre `(2^31 - 1, 0)` and pair `(0, 1)` the call needs `xc + y = 2^31`, which is
not a C `int`, and the eight points are not produced. -/
theorem plotSymmetric_not_as_stated :
    plotSymmetric32 0 10 1 2 = some (plotSymmetric 0 10 1 2) ∧
    (⟨2, 1⟩ : Point) ∈ plotSymmetricAsStated 0 10 1 2 ∧
    (⟨2, 1⟩ : Point) ∉ plotSymmetric 0 10 1 2 ∧
    (⟨2, 11⟩ : Point) ∈ plotSymmetric 0 10 1 2 ∧
    (⟨2, 11⟩ : Point) ∉ plotSymmetricAsStated 0 10 1 2 ∧
    plotSymmetric32 2147483647 0 0 1 = none := by
  decide

/-- Claim C16 as amended: for every centre `(cx, cy)` and octant pair `(x, y)` such that the
eight coordinates `cx ± x`, `cy ± y`, `cx ± y`, `cy ± x` are C `int` values, one symmetric
step makes exactly 8 plot calls, duplicates included: the four points `(cx ± x, cy ± y)`
followed by the four points `(cx ± y, cy ± x)`. -/
theorem plotSymmetric32_eight (cx cy x y : Int) (h : SymInRange cx cy x y) :
    ∃ l, plotSymmetric32 cx cy x y = some l ∧ l.length = 8 ∧
      l = [⟨cx + x, cy + y⟩, ⟨cx - x, cy + y⟩, ⟨cx + x, cy - y⟩, ⟨cx - x, cy - y⟩] ++
          [⟨cx + y, cy + x⟩, ⟨cx - y, cy + x⟩, ⟨cx + y, cy - x⟩, ⟨cx - y, cy - x⟩] ∧
      ∀ q : Point, q ∈ l ↔
        ((q.x = cx + x ∨ q.x = cx - x) ∧ (q.y = cy + y ∨ q.y = cy - y)) ∨
        ((q.x = cx + y ∨ q.x = cx - y) ∧ (q.y = cy + x ∨ q.y = cy - x)) := by
  refine ⟨_, plotSymmetric32_of_range cx cy x y h, rfl, rfl, ?_⟩
  intro q
  cases q with
  | mk a b =>
    simp only [plotSymmetric, List.mem_cons, Point.mk.injEq, List.mem_singleton,
      List.not_mem_nil, or_false]
    constructor
    · rintro (h | h | h | h | h | h | h | h) <;> simp [h.1, h.2]
    · rintro (⟨h1 | h1, h2 | h2⟩ | ⟨h1 | h1, h2 | h2⟩) <;> simp [h1, h2]

/-- Witness for the amended C16 at the edge of the range: centre `(2^31 - 3, 10)`, pair
`(1, 2)`. -/
theorem plotSymmetric32_eight_witness :
    SymInRange 2147483645 10 1 2 ∧
    ∃ l, plotSymmetric32 2147483645 10 1 2 = some l ∧ l.length = 8 ∧
      l = [⟨2147483645 + 1, 10 + 2⟩, ⟨2147483645 - 1, 10 + 2⟩, ⟨2147483645 + 1, 10 - 2⟩,
            ⟨2147483645 - 1, 10 - 2⟩] ++
          [⟨2147483645 + 2, 10 + 1⟩, ⟨2147483645 - 2, 10 + 1⟩, ⟨2147483645 + 2, 10 - 1⟩,
            ⟨2147483645 - 2, 10 - 1⟩] ∧
      ∀ q : Point, q ∈ l ↔
        ((q.x = 2147483645 + 1 ∨ q.x = 2147483645 - 1) ∧ (q.y = 10 + 2 ∨ q.y = 10 - 2)) ∨
        ((q.x = 2147483645 + 2 ∨ q.x = 2147483645 - 2) ∧ (q.y = 10 + 1 ∨ q.y = 10 - 1)) :=
  ⟨by unfold SymInRange InInt32; decide,
    plotSymmetric32_eight 2147483645 10 1 2 (by unfold SymInRange InInt32; decide)⟩

/-- Claim C17: for every centre and radius `r ≥ 0` the loop of `drawCircleMidpoint` exits
within `r` iterations, and `plot` is called at most `8 * (r + 1)` times. -/
theorem drawCircleMidpoint_terminates (xc yc r : Int) (fuel : Nat) (hr : 0 ≤ r)
    (hfuel : r ≤ (fuel : Int)) :
    ∃ l, drawCircleMidpoint fuel xc yc r = some l ∧ (l.length : Int) ≤ 8 * (r + 1) ∧
      drawCircleMidpoint r.toNat xc yc r = some l := by
  obtain ⟨l, hl, -⟩ := drawCircleMidpoint_spec xc yc r r.toNat hr (by omega)
  obtain ⟨t, ht, rfl⟩ := drawCircleMidpoint_prefix _ _ _ _ _ hl
  have hlen := circleLoop_length xc yc _ _ _ _ _ ht
  have hmono := circleLoop_fuel_mono xc yc _ _ _ _ _ ht fuel (by omega)
  refine ⟨_, by simp [drawCircleMidpoint, hmono], ?_, hl⟩
  rw [sub_zero, max_eq_left hr] at hlen
  simp only [List.length_append, plotSymmetric, List.length_cons, List.length_nil]
  push_cast
  omega

/-- Witness for C17 on the circle of radius 8 about `(-3, -3)` of `main`. -/
theorem drawCircleMidpoint_terminates_witness :
    (0 : Int) ≤ 8 ∧ (8 : Int) ≤ ((8 : Nat) : Int) ∧
    ∃ l, drawCircleMidpoint 8 (-3) (-3) 8 = some l ∧ (l.length : Int) ≤ 8 * (8 + 1) ∧
      drawCircleMidpoint (8 : Int).toNat (-3) (-3) 8 = some l :=
  ⟨by decide, by decide, drawCircleMidpoint_terminates (-3) (-3) 8 8 (by decide) (by decide)⟩

/-- Counterexample to C18 as stated: for `r = -2^31` the initialisation `p = 1 - r` has the
value `2^31 + 1`, which is not a C `int`; the call is not well defined and no budget yields
the eight plot calls. -/
theorem drawCircleMidpoint32_negative_overflow :
    ¬ ∃ (fuel : Nat) (l : List Point),
      drawCircleMidpoint32 fuel 0 0 (-2147483648) = some l ∧ l.length = 8 := by
  have key : ∀ fuel, drawCircleMidpoint32 fuel 0 0 (-2147483648) = none := by
    intro fuel; rfl
  rintro ⟨fuel, l, h, -⟩
  rw [key] at h
  exact Option.noConfusion h

/-- Claim C18 as amended: for every centre and negative radius `r` such that `1 - r`, `xc`,
`yc`, `xc ± r` and `yc ± r` are C `int` values, `drawCircleMidpoint` is well defined and its
loop is never entered, whatever the budget: exactly the 8 plot calls of the initial
symmetric step are made, and the set of plotted points is
`{(xc, yc + r), (xc, yc - r), (xc + r, yc), (xc - r, yc)}`. -/
theorem drawCircleMidpoint32_negative (xc yc r : Int) (fuel : Nat) (hr : r < 0)
    (hp : InInt32 (1 - r)) (hs : SymInRange xc yc 0 r) :
    ∃ l, drawCircleMidpoint32 fuel xc yc r = some l ∧ l = plotSymmetric xc yc 0 r ∧
      l.length = 8 ∧
      ∀ q : Point, q ∈ l ↔
        q = ⟨xc, yc + r⟩ ∨ q = ⟨xc, yc - r⟩ ∨ q = ⟨xc + r, yc⟩ ∨ q = ⟨xc - r, yc⟩ := by
  have hxy : ¬ (0 : Int) < r := by omega
  refine ⟨plotSymmetric xc yc 0 r, ?_, rfl, rfl, ?_⟩
  · have rs := plotSymmetric32_of_range xc yc 0 r hs
    cases fuel <;>
      simp [drawCircleMidpoint32, circleLoop32, hxy, int32_of_mem _ hp, rs]
  · intro q
    simp only [plotSymmetric, List.mem_cons, List.mem_singleton, List.not_mem_nil, or_false,
      add_zero, sub_zero]
    tauto

/-- Witness for the amended C18 at the edge of the range: radius `-(2^31 - 2)` about
`(0, 0)` with an empty budget. -/
theorem drawCircleMidpoint32_negative_witness :
    (-2147483646 : Int) < 0 ∧ InInt32 (1 - -2147483646) ∧ SymInRange 0 0 0 (-2147483646) ∧
    ∃ l, drawCircleMidpoint32 0 0 0 (-2147483646) = some l ∧
      l = plotSymmetric 0 0 0 (-2147483646) ∧ l.length = 8 ∧
      ∀ q : Point, q ∈ l ↔
        q = ⟨0, 0 + -2147483646⟩ ∨ q = ⟨0, 0 - -2147483646⟩ ∨ q = ⟨0 + -2147483646, 0⟩ ∨
          q = ⟨0 - -2147483646, 0⟩ :=
  ⟨by decide, by unfold InInt32; decide, by unfold SymInRange InInt32; decide,
    drawCircleMidpoint32_negative 0 0 (-2147483646) 0 (by decide) (by unfold InInt32; decide)
      (by unfold SymInRange InInt32; decide)⟩

/-- Claim C19: along every run of `drawLineBresenham` each value held by `err` satisfies
`|2 * err| ≤ 3 * max |x1 - x0| |y1 - y0|`; hence, when the four input coordinates have
absolute value at most `2 ^ 28`, the run in which every `int` operation is checked against
the signed 32-bit range completes without overflow and plots exactly the pixels of the
unbounded-integer model. -/
theorem drawLineBresenham_int32 (x0 y0 x1 y1 : Int) (fuel : Nat)
    (hfuel : max |x1 - x0| |y1 - y0| < (fuel : Int)) :
    (∃ es, drawLineBresenhamErr fuel x0 y0 x1 y1 = some es ∧
      ∀ e ∈ es, |2 * e| ≤ 3 * max |x1 - x0| |y1 - y0|) ∧
    (|x0| ≤ 2 ^ 28 → |y0| ≤ 2 ^ 28 → |x1| ≤ 2 ^ 28 → |y1| ≤ 2 ^ 28 →
      ∃ l, drawLineBresenham32 fuel x0 y0 x1 y1 = some l ∧
        drawLineBresenham fuel x0 y0 x1 y1 = some l) := by
  refine ⟨drawLineBresenhamErr_bound x0 y0 x1 y1 fuel hfuel, ?_⟩
  intro hx0 hy0 hx1 hy1
  norm_num at hx0 hy0 hx1 hy1
  refine ⟨linePoints x0 y0 x1 y1, ?_, drawLineBresenham_eq x0 y0 x1 y1 fuel hfuel⟩
  rw [drawLineBresenham32_eq x0 y0 x1 y1 fuel hx0 hy0 hx1 hy1]
  exact drawLineBresenham_eq x0 y0 x1 y1 fuel hfuel

/-- Witness for C19 on the longest admissible diagonal, from `(-2 ^ 28, 2 ^ 28)` to
`(2 ^ 28, -2 ^ 28)`. -/
theorem drawLineBresenham_int32_witness :
    max |(268435456 : Int) - (-268435456)| |(-268435456 : Int) - 268435456|
        < ((536870913 : Nat) : Int) ∧
    |(-268435456 : Int)| ≤ 2 ^ 28 ∧ |(268435456 : Int)| ≤ 2 ^ 28 ∧
    (∃ es, drawLineBresenhamErr 536870913 (-268435456) 268435456 268435456 (-268435456)
        = some es ∧
      ∀ e ∈ es, |2 * e| ≤
        3 * max |(268435456 : Int) - (-268435456)| |(-268435456 : Int) - 268435456|) ∧
    (|(-268435456 : Int)| ≤ 2 ^ 28 → |(268435456 : Int)| ≤ 2 ^ 28 →
      |(268435456 : Int)| ≤ 2 ^ 28 → |(-268435456 : Int)| ≤ 2 ^ 28 →
      ∃ l, drawLineBresenham32 536870913 (-268435456) 268435456 268435456 (-268435456)
          = some l ∧
        drawLineBresenham 536870913 (-268435456) 268435456 268435456 (-268435456) = some l) :=
  ⟨by decide, by decide, by decide,
    drawLineBresenham_int32 (-268435456) 268435456 268435456 (-268435456) 536870913
      (by decide)⟩

end Graphics
